import Mathlib

/-!
Verification of the SSH-config conversion engine.

The repository contains two implementations of the same engine:
`src/ssh_config/parser.py` (class `SSHConfigParser` plus the module-level
`detect_format`, `_looks_like_ssh_config` and `convert_format`; this module is
the package's public API) and `src/ssh_config/core.py` (class
`SSHConfigConverter`, used by the CLI).  Both are embedded below, the first
under namespace `Parser`, the second under namespace `Core`.

Python string primitives (`strip`, `split`, `join`, `lower`, `capitalize`,
`splitlines`, …) are modelled over `List Char`.  The model covers the ASCII
whitespace characters recognised by Python and ASCII case mapping; `splitlines`
is modelled for line feeds only (the inputs appearing in the development
contain no bare carriage returns or other Unicode line breaks).

The external JSON and YAML libraries are not part of the repository; where a
function only consumes their success/failure or result shape
(`detect_format`), they are modelled as oracle parameters.  `json.dumps` with
`indent=2` on the intermediate data produced by the engine is modelled
directly, for strings that need no escaping (the development only applies it
to such strings).
-/

namespace SSHConf

/-! ## Python string primitives -/

/-- Whitespace characters stripped by Python `str.strip` (ASCII subset). -/
def isPySpace (c : Char) : Bool :=
  c = ' ' || c = '\t' || c = '\n' || c = '\r' || c = '\x0b' || c = '\x0c'

/-- ASCII lower-casing of a single character, as Python `str.lower` does for
characters in the ASCII range (`A`-`Z` is 65-90; adding 32 reaches
`a`-`z`). -/
def lowerChar (c : Char) : Char :=
  if 65 ≤ c.toNat ∧ c.toNat ≤ 90 then Char.ofNat (c.toNat + 32) else c

/-- ASCII upper-casing of a single character, as Python `str.upper` does for
characters in the ASCII range. -/
def upperChar (c : Char) : Char :=
  if 97 ≤ c.toNat ∧ c.toNat ≤ 122 then Char.ofNat (c.toNat - 32) else c

/-- Python `str.lower`. -/
def lowerL (cs : List Char) : List Char := cs.map lowerChar

/-- Python `str.strip()` (no argument): drop whitespace from both ends. -/
def stripL (cs : List Char) : List Char :=
  ((cs.dropWhile isPySpace).reverse.dropWhile isPySpace).reverse

/-- Python `str.rstrip()`: drop whitespace from the right end. -/
def rstripL (cs : List Char) : List Char :=
  (cs.reverse.dropWhile isPySpace).reverse

/-- Python `str.capitalize()`: upper-case the first character, lower-case the
rest. -/
def pyCapitalize (cs : List Char) : List Char :=
  match cs with
  | [] => []
  | c :: rest => upperChar c :: rest.map lowerChar

/-- Python `sep.join(parts)` over character lists. -/
def joinL (sep : List Char) : List (List Char) → List Char
  | [] => []
  | [l] => l
  | l :: ls => l ++ (sep ++ joinL sep ls)

/-- Splitting on a line feed, keeping empty segments: `str.split("\n")`. -/
def splitNlAux (acc : List Char) : List Char → List (List Char)
  | [] => [acc.reverse]
  | c :: cs => if c = '\n' then acc.reverse :: splitNlAux [] cs else splitNlAux (c :: acc) cs

/-- Python `content.split("\n")` (used by `core.ssh_to_dict`). -/
def pySplitNl (cs : List Char) : List (List Char) := splitNlAux [] cs

/-- Python `content.splitlines()` restricted to line-feed separators: like
`split("\n")` but with no trailing empty line and yielding `[]` on `""`. -/
def pySplitlines (cs : List Char) : List (List Char) :=
  match cs with
  | [] => []
  | _ =>
    let parts := pySplitNl cs
    if cs.getLast? = some '\n' then parts.dropLast else parts

/-- Python `str.split()` (no argument): whitespace-separated tokens, no
empties.  The accumulator carries the reversed current token. -/
def splitWsAux (acc : List Char) : List Char → List (List Char)
  | [] => if acc.isEmpty then [] else [acc.reverse]
  | c :: cs =>
    if isPySpace c then
      if acc.isEmpty then splitWsAux [] cs else acc.reverse :: splitWsAux [] cs
    else splitWsAux (c :: acc) cs

/-- Python `str.split()` with no argument. -/
def splitWs (cs : List Char) : List (List Char) := splitWsAux [] cs

/-- Prefix test over character lists (`str.startswith`). -/
def startsWithL (pre cs : List Char) : Bool := pre.isPrefixOf cs

/-- Decidable substring occurrence (used to state facts about outputs). -/
def hasInfix (pat : List Char) : List Char → Bool
  | [] => pat.isEmpty
  | c :: cs => pat.isPrefixOf (c :: cs) || hasInfix pat cs

/-! ## The intermediate data model

A parsed value is either a single string or a list of strings; an entry is an
insertion-ordered dictionary from directive names to values, exactly the
`Dict[str, Union[str, List[str]]]` of the source. -/

inductive Value where
  | str (s : String)
  | seq (xs : List String)
deriving DecidableEq

/-- One host block: an insertion-ordered string-keyed dictionary. -/
abbrev Entry := List (String × Value)

/-- The parsed document: `List[Dict[str, Any]]` in the source. -/
abbrev Doc := List Entry

/-- Python `d[k]` lookup (as an `Option`). -/
def dictGet (e : Entry) (k : String) : Option Value :=
  (e.find? (fun p => p.1 = k)).map (fun p => p.2)

/-- Python `d[k] = v`: update in place if the key exists (keeping its
position), otherwise append at the end. -/
def dictSet (e : Entry) (k : String) (v : Value) : Entry :=
  if e.any (fun p => p.1 = k) then
    e.map (fun p => if p.1 = k then (k, v) else p)
  else e ++ [(k, v)]

/-! ## `parser.py`: `SSHConfigParser.parse_ssh_config` -/

namespace Parser

/-- One iteration of the `for line in content.splitlines()` loop of
`parse_ssh_config`.  The state is `(hosts, current_host)`.  The only failure
the source could raise here is `host_names[0]` on an empty token list
(`IndexError`), kept as an `Except` error. -/
def parseStep (st : Doc × Option Entry) (raw : List Char) :
    Except String (Doc × Option Entry) :=
  let line := stripL raw
  if line.isEmpty then Except.ok st
  else if startsWithL ['#'] line then Except.ok st
  else if startsWithL "host ".data (lowerL line) then
    let hosts := st.1 ++ (match st.2 with | some h => [h] | none => [])
    match splitWs (stripL (line.drop 5)) with
    | [] => Except.error "IndexError: list index out of range"
    | n :: ns =>
      let hv := if ns.isEmpty then Value.str (String.mk n)
                else Value.seq ((n :: ns).map String.mk)
      Except.ok (hosts, some [("Host", hv)])
  else
    match st.2 with
    | none => Except.ok st
    | some cur =>
      if line.contains ' ' then
        -- key, value = line.split(" ", 1); key = key.strip(); value = value.strip()
        let key := String.mk (stripL (line.takeWhile (fun c => c ≠ ' ')))
        let value := String.mk (stripL ((line.dropWhile (fun c => c ≠ ' ')).drop 1))
        let cur' :=
          match dictGet cur key with
          | some (Value.seq vs) => dictSet cur key (Value.seq (vs ++ [value]))
          | some (Value.str v0) => dictSet cur key (Value.seq [v0, value])
          | none => dictSet cur key (Value.str value)
        Except.ok (st.1, some cur')
      else Except.ok st

/-- Append the open entry, as the source does after the loop and before each
new `Host` block. -/
def closeState (st : Doc × Option Entry) : Doc :=
  st.1 ++ (match st.2 with | some h => [h] | none => [])

/-- `SSHConfigParser.parse_ssh_config`. -/
def parse_ssh_config (content : String) : Except String Doc := do
  let st ← (pySplitlines content.data).foldlM parseStep ([], none)
  Except.ok (closeState st)

/-- The indented lines emitted for one directive: one line per element of a
list value, a single line otherwise (`f"    {key} {item}"`). -/
def valueLines (k : String) (v : Value) : List (List Char) :=
  match v with
  | Value.seq items => items.map (fun it => "    ".data ++ k.data ++ ' ' :: it.data)
  | Value.str s => ["    ".data ++ k.data ++ ' ' :: s.data]

/-- The `Host` line of a block; `host["Host"]` raises `KeyError` when the key
is absent. -/
def hostLineOf (e : Entry) : Except String (List Char) :=
  match dictGet e "Host" with
  | some (Value.seq ps) => Except.ok ("Host ".data ++ joinL [' '] (ps.map String.data))
  | some (Value.str s) => Except.ok ("Host ".data ++ s.data)
  | none => Except.error "KeyError: Host"

/-- All lines appended for one host block: the `Host` line, one line per
remaining scalar, and the blank separator line. -/
def entryLines (e : Entry) : Except String (List (List Char)) := do
  let hl ← hostLineOf e
  Except.ok (hl :: (e.map (fun p => if p.1 = "Host" then [] else valueLines p.1 p.2)).flatten ++ [[]])

/-- `SSHConfigParser.format_ssh_config`: join the lines with newlines, then
`rstrip()` and append a single final newline. -/
def format_ssh_config (data : Doc) : Except String String := do
  let lss ← data.mapM entryLines
  Except.ok (String.mk (rstripL (joinL ['\n'] lss.flatten) ++ ['\n']))

end Parser

/-! ## Format detection

`json.loads` and `yaml.safe_load` belong to external libraries; the detectors
only use whether they succeed and, for YAML, whether the result is a mapping
or sequence (`dict`/`list`) rather than a bare scalar.  They are passed in as
an oracle. -/

/-- Shape of a successful `yaml.safe_load` result. -/
inductive YamlShape where
  | scalar
  | collection
deriving DecidableEq

/-- Oracle for the external JSON/YAML libraries: whether `json.loads`
succeeds, and the result shape of `yaml.safe_load` (`none` = `YAMLError`). -/
structure DetOracles where
  jsonOk : List Char → Bool
  yamlLoad : List Char → Option YamlShape

namespace Parser

/-- `_looks_like_ssh_config` from `parser.py`: scan the first 10 physical
lines for a `host `/`match ` prefix or an un-marked key-value shape. -/
def looks_like_ssh_config (content : List Char) : Bool :=
  ((pySplitlines content).take 10).any fun raw =>
    let line := stripL raw
    !line.isEmpty && !startsWithL ['#'] line &&
      (startsWithL "host ".data (lowerL line) || startsWithL "match ".data (lowerL line) ||
        (line.contains ' ' &&
          !(startsWithL ['\x7b'] line || startsWithL ['['] line || startsWithL ['-'] line)))

/-- `detect_format` from `parser.py`. -/
def detect_format (o : DetOracles) (content : String) : String :=
  let c := stripL content.data
  if c.isEmpty then "ssh"
  else if o.jsonOk c then "json"
  else
    match o.yamlLoad c with
    | some _ => if looks_like_ssh_config c then "ssh" else "yaml"
    | none => "ssh"

end Parser

/-! ## `core.py`: `SSHConfigConverter` -/

/-- The intermediate mapping `{"hosts": [...]}` built by `core.py`. -/
structure CoreDoc where
  hosts : List Entry
deriving DecidableEq

namespace Core

/-- `SSHConfigConverter.detect_format`; raises `ValueError` on
empty/whitespace-only input. -/
def detect_format (o : DetOracles) (content : String) : Except String String :=
  let c := stripL content.data
  if c.isEmpty then Except.error "Empty content"
  else if o.jsonOk c then Except.ok "json"
  else
    match o.yamlLoad c with
    | some YamlShape.collection => Except.ok "yaml"
    | _ => Except.ok "ssh"

/-- The multi-value option set of `ssh_to_dict`. -/
def multiValueKeys : List String := ["identityfile", "localforward", "remoteforward"]

/-- Parse state of `ssh_to_dict`.  `aliased` records that `current_host` is
the same Python object as `hosts[0]` (the implicit global block), so writes to
the current entry are also visible at index 0 and the final append duplicates
that entry. -/
structure CSt where
  hosts : List Entry
  cur : Option Entry
  aliased : Bool
deriving DecidableEq

/-- Replace the current entry, writing through the `hosts[0]` alias. -/
def writeCur (st : CSt) (e : Entry) : CSt :=
  if st.aliased then { hosts := st.hosts.set 0 e, cur := some e, aliased := true }
  else { hosts := st.hosts, cur := some e, aliased := false }

/-- Record one non-`host` directive into an entry: multi-value keys
accumulate a list, other keys are overwritten; the stored key is
`key.capitalize()` of the lowered name.  Appending to a string raises
`AttributeError` in the source (never reached, see `C10`). -/
def coreRecord (cu : Entry) (keyLower : String) (rest : List Char) :
    Except String Entry :=
  let capKey := String.mk (pyCapitalize keyLower.data)
  let value := String.mk rest
  if multiValueKeys.contains keyLower then
    match dictGet cu capKey with
    | none => Except.ok (dictSet cu capKey (Value.seq [value]))
    | some (Value.seq vs) => Except.ok (dictSet cu capKey (Value.seq (vs ++ [value])))
    | some (Value.str _) => Except.error "AttributeError: str object has no attribute append"
  else
    Except.ok (dictSet cu capKey (Value.str value))

/-- One iteration of the `for line in lines` loop of `ssh_to_dict`. -/
def coreStep (st : CSt) (raw : List Char) : Except String CSt :=
  let line := stripL raw
  if line.isEmpty then Except.ok st
  else if startsWithL ['#'] line then Except.ok st
  else
    -- parts = line.split(maxsplit=1) on the already stripped line
    let t := line.takeWhile (fun c => !isPySpace c)
    let rest := (line.drop t.length).dropWhile isPySpace
    if rest.isEmpty then Except.ok st
    else
      let key := String.mk (lowerL t)
      if key = "host" then
        let hosts := st.hosts ++ (match st.cur with | some cu => [cu] | none => [])
        Except.ok { hosts := hosts, cur := some [("Host", Value.str (String.mk rest))],
                    aliased := false }
      else
        match st.cur with
        | some cu => do
          let cu' ← coreRecord cu key rest
          Except.ok (writeCur st cu')
        | none =>
          match st.hosts with
          | [] => do
            -- hosts.append({'Host': '*'}); current_host = hosts[0] (aliased)
            let cu' ← coreRecord [("Host", Value.str "*")] key rest
            Except.ok { hosts := [cu'], cur := some cu', aliased := true }
          | h0 :: _ =>
            if dictGet h0 "Host" = some (Value.str "*") then do
              -- current_host = hosts[0] (aliased)
              let cu' ← coreRecord h0 key rest
              Except.ok { hosts := st.hosts.set 0 cu', cur := some cu', aliased := true }
            else do
              -- current_host = {'Host': '*'}; its Host value is '*', so the
              -- hosts.insert(0, ...) guard below it never fires
              let cu' ← coreRecord [("Host", Value.str "*")] key rest
              Except.ok { hosts := st.hosts, cur := some cu', aliased := false }

/-- `SSHConfigConverter.ssh_to_dict`. -/
def ssh_to_dict (content : String) : Except String CoreDoc := do
  let st ← (pySplitNl content.data).foldlM coreStep { hosts := [], cur := none, aliased := false }
  Except.ok ⟨st.hosts ++ (match st.cur with | some cu => [cu] | none => [])⟩

/-- Python `repr` of a string, for strings needing no escape sequences (the
development only applies it to such strings). -/
def pyReprStr (s : String) : List Char :=
  let sq : Char := Char.ofNat 39
  if s.data.contains sq && !s.data.contains '"' then '"' :: s.data ++ ['"']
  else sq :: s.data ++ [sq]

/-- Python `str()` of an entry value, as an f-string interpolation would
render it: the string itself, or the `repr`-style rendering of a list. -/
def pyStrOfValue : Value → List Char
  | Value.str s => s.data
  | Value.seq xs => '[' :: joinL ", ".data (xs.map pyReprStr) ++ [']']

/-- `SSHConfigConverter.dict_to_ssh`: note `f"Host {host['Host']}"` (no
space-joining of list values) and the final `rstrip()` with no trailing
newline appended. -/
def dict_to_ssh (data : CoreDoc) : String :=
  let lines := data.hosts.flatMap (fun host =>
    match dictGet host "Host" with
    | none => []  -- 'Host' not in host: continue
    | some hv =>
      (("Host ".data ++ pyStrOfValue hv) ::
        (host.map (fun p => if p.1 = "Host" then [] else Parser.valueLines p.1 p.2)).flatten)
        ++ [[]])
  String.mk (rstripL (joinL ['\n'] lines))

end Core

/-! ## `json.dumps(..., indent=2)` on the intermediate data

Modelled for string leaves that need no escaping. -/

/-- JSON string literal (no escaping needed for the strings involved). -/
def jsonQ (s : String) : List Char := '"' :: s.data ++ ['"']

/-- `indent` spaces. -/
def jsonPad (n : Nat) : List Char := List.replicate n ' '

/-- A JSON array of strings at surrounding indent `ind`. -/
def jsonOfList (ind : Nat) (xs : List String) : List Char :=
  match xs with
  | [] => "[]".data
  | _ => '[' :: '\n' ::
      (joinL ",\n".data (xs.map (fun x => jsonPad (ind + 2) ++ jsonQ x)) ++
        '\n' :: jsonPad ind ++ [']'])

/-- A JSON rendering of an entry value at surrounding indent `ind`. -/
def jsonOfValue (ind : Nat) : Value → List Char
  | Value.str s => jsonQ s
  | Value.seq xs => jsonOfList ind xs

/-- A JSON object for one entry at surrounding indent `ind`. -/
def jsonOfEntry (ind : Nat) (e : Entry) : List Char :=
  match e with
  | [] => "\x7b\x7d".data
  | _ => Char.ofNat 123 :: '\n' ::
      (joinL ",\n".data (e.map (fun p =>
          jsonPad (ind + 2) ++ jsonQ p.1 ++ ':' :: ' ' :: jsonOfValue (ind + 2) p.2)) ++
        '\n' :: jsonPad ind ++ [Char.ofNat 125])

/-- A JSON array of entry objects at surrounding indent `ind`. -/
def jsonOfEntries (ind : Nat) (hs : List Entry) : List Char :=
  match hs with
  | [] => "[]".data
  | _ => '[' :: '\n' ::
      (joinL ",\n".data (hs.map (fun e => jsonPad (ind + 2) ++ jsonOfEntry (ind + 2) e)) ++
        '\n' :: jsonPad ind ++ [']'])

/-- `json.dumps(data, indent=2)` where `data` is the list of host entries
(the shape `parser.convert_format` passes for an `ssh` source). -/
def jsonOfDoc (d : Doc) : List Char := jsonOfEntries 0 d

namespace Core

/-- `SSHConfigConverter.dict_to_json`:
`json.dumps({"hosts": hosts}, indent=2, ensure_ascii=False)`. -/
def dict_to_json (data : CoreDoc) : String :=
  String.mk (Char.ofNat 123 :: '\n' ::
    (jsonPad 2 ++ jsonQ "hosts" ++ ':' :: ' ' :: jsonOfEntries 2 data.hosts ++
      '\n' :: [Char.ofNat 125]))

end Core

/-! ## The conversion drivers -/

/-- Oracle for loading/serialising the structured formats in
`parser.convert_format` (delegated to the external libraries). -/
structure ParserLoad where
  yamlLoadDoc : List Char → Except String Doc
  jsonLoadDoc : List Char → Except String Doc
  yamlDump : Doc → String

namespace Parser

/-- `convert_format` from `parser.py`. -/
def convert_format (o : DetOracles) (lo : ParserLoad) (content : String)
    (target : String) (source : Option String) : Except String String :=
  let src := match source with | some f => f | none => detect_format o content
  if src = target then Except.ok content
  else do
    let data ←
      match src with
      | "ssh" => parse_ssh_config content
      | "yaml" => lo.yamlLoadDoc content.data
      | "json" => lo.jsonLoadDoc content.data
      | _ => Except.error ("Unsupported source format: " ++ src)
    match target with
    | "ssh" => format_ssh_config data
    | "yaml" => Except.ok (lo.yamlDump data)
    | "json" => Except.ok (String.mk (jsonOfDoc data))
    | _ => Except.error ("Unsupported target format: " ++ target)

end Parser

/-! ## Well-formedness of documents

Boolean predicates used as hypotheses of the round-trip and serialisation
theorems.  They capture §3's invariants together with the extra conditions
the counterexamples force: keys and host patterns are single non-empty
whitespace-free words, values are non-empty, use no whitespace other than
plain spaces, and are stripped; no key is case-insensitively `host`; sequence
values have at least two elements; keys within an entry are distinct and
`Host` comes first. -/

/-- First character (if any) is not whitespace. -/
def headNotSpace (cs : List Char) : Bool :=
  match cs with
  | [] => true
  | c :: _ => !isPySpace c

/-- Last character (if any) is not whitespace. -/
def lastNotSpace (cs : List Char) : Bool := headNotSpace cs.reverse

/-- A non-empty word with no whitespace at all. -/
def tokenL (cs : List Char) : Bool := !cs.isEmpty && cs.all (fun c => !isPySpace c)

/-- A non-empty stripped value whose only whitespace is plain spaces. -/
def plainVal (cs : List Char) : Bool :=
  !cs.isEmpty && headNotSpace cs && lastNotSpace cs &&
    cs.all (fun c => c = ' ' || !isPySpace c)

/-- A directive name that parses back as a directive: a word, not a comment
starter, and not case-insensitively `host` (stated through the two prefix
comparisons the proofs need). -/
def wfKeyL (k : List Char) : Bool :=
  tokenL k && (match k with | c :: _ => c ≠ '#' | [] => false) &&
    !(List.isPrefixOf "host ".data (lowerL k ++ [' '])) &&
    !(List.isPrefixOf (lowerL k ++ [' ']) "host ".data)

/-- Shape of a non-`Host` value: scalar, or a sequence of length at least
two (a one-element sequence serialises to one line and re-parses as a
scalar). -/
def wfValue : Value → Bool
  | Value.str s => plainVal s.data
  | Value.seq xs => decide (2 ≤ xs.length) && xs.all (fun x => plainVal x.data)

/-- Shape of a `Host` value: one pattern word, or at least two of them. -/
def wfHostValue : Value → Bool
  | Value.str s => tokenL s.data
  | Value.seq xs => decide (2 ≤ xs.length) && xs.all (fun x => tokenL x.data)

/-- A well-formed entry: `Host` first, distinct keys, well-formed names and
values. -/
def wfEntry : Entry → Bool
  | [] => false
  | (k, hv) :: rest =>
    (k = "Host") && wfHostValue hv &&
      rest.all (fun p => wfKeyL p.1.data && wfValue p.2) &&
      decide ((k :: rest.map Prod.fst).Nodup)

/-- A well-formed document. -/
def wfDoc (d : Doc) : Bool := d.all wfEntry

/-! ## The serialisation order described by §4.3 of the spec

`specLines` is written from the spec's words (host line with space-joined
patterns, then one indented line per scalar in stored key order, then a blank
separator) and is compared against `format_ssh_config` in C8. -/

/-- The `Host` line the spec describes. -/
def specHostText : Value → List Char
  | Value.str s => "Host ".data ++ s.data
  | Value.seq ps => "Host ".data ++ joinL [' '] (ps.map String.data)

/-- The lines the spec describes for one entry (whose first key is
`Host`). -/
def specEntryLines : Entry → List (List Char)
  | (_, hv) :: rest =>
    specHostText hv :: rest.flatMap (fun p => Parser.valueLines p.1 p.2) ++ [[]]
  | [] => []

/-- The lines the spec describes for a document. -/
def specLines (d : Doc) : List (List Char) := d.flatMap specEntryLines

/-- Oracle for loading/serialising the structured formats in
`core.convert`. -/
structure CoreLoad where
  yamlLoadDict : List Char → Except String CoreDoc
  jsonLoadDict : List Char → Except String CoreDoc
  yamlDumpDict : CoreDoc → String

namespace Core

/-- `SSHConfigConverter.convert`. -/
def convert (o : DetOracles) (lo : CoreLoad) (input : String) (target : String) :
    Except String String := do
  let src ← detect_format o input
  if src = target then Except.ok input
  else do
    let data ←
      match src with
      | "ssh" => ssh_to_dict input
      | "yaml" => lo.yamlLoadDict input.data
      | "json" => lo.jsonLoadDict input.data
      | _ => Except.error ("Unsupported source format: " ++ src)
    match target with
    | "ssh" => Except.ok (dict_to_ssh data)
    | "yaml" => Except.ok (lo.yamlDumpDict data)
    | "json" => Except.ok (dict_to_json data)
    | _ => Except.error ("Unsupported target format: " ++ target)

end Core


/-! ## Concrete oracle and loader assignments for closed tests

The detection oracles stand for the outcome of `json.loads` / `yaml.safe_load`
on the inputs of the closed theorems below; the loader stubs are passed on
conversion paths that never read yaml or json input. -/

/-- Oracle run: the strict JSON parse fails, the lenient YAML parse returns a
mapping or sequence. -/
def oCollect : DetOracles := ⟨fun _ => false, fun _ => some YamlShape.collection⟩

/-- Oracle run: the strict JSON parse fails, the lenient YAML parse returns a
bare scalar. -/
def oScalar : DetOracles := ⟨fun _ => false, fun _ => some YamlShape.scalar⟩

/-- Loader stub for conversion paths that never load yaml or json input. -/
def loP : ParserLoad :=
  ⟨fun _ => Except.error "unused", fun _ => Except.error "unused", fun _ => ""⟩

/-- Loader stub for conversion paths that never load yaml or json input. -/
def loC : CoreLoad :=
  ⟨fun _ => Except.error "unused", fun _ => Except.error "unused", fun _ => ""⟩

/-- Substring occurrence test on character lists. -/
def containsSub (pat : List Char) : List Char → Bool
  | [] => pat.isEmpty
  | c :: t => List.isPrefixOf pat (c :: t) || containsSub pat t


/-! # Lemmas and claim theorems -/


/-! ### Character-level lemmas -/

theorem charToNat_inj {c d : Char} (h : c.toNat = d.toNat) : c = d := by
  apply Char.eq_of_val_eq
  apply UInt32.eq_of_toBitVec_eq
  have h2 : c.val.toNat = d.val.toNat := h
  exact BitVec.eq_of_toNat_eq (by simpa [UInt32.toNat] using h2)

theorem charOfNat_toNat {n : Nat} (h : n < 55296) : (Char.ofNat n).toNat = n := by
  unfold Char.ofNat
  rw [dif_pos (Or.inl h)]
  unfold Char.ofNatAux
  simp [Char.toNat, UInt32.toNat]

theorem lowerChar_toNat (c : Char) :
    (lowerChar c).toNat =
      if 65 ≤ c.toNat ∧ c.toNat ≤ 90 then c.toNat + 32 else c.toNat := by
  unfold lowerChar
  split_ifs with h
  · exact charOfNat_toNat (by omega)
  · rfl

theorem upperChar_toNat (c : Char) :
    (upperChar c).toNat =
      if 97 ≤ c.toNat ∧ c.toNat ≤ 122 then c.toNat - 32 else c.toNat := by
  unfold upperChar
  split_ifs with h
  · exact charOfNat_toNat (by omega)
  · rfl

theorem lowerChar_space {c : Char} (h : lowerChar c = ' ') : c = ' ' := by
  have ht := congrArg Char.toNat h
  rw [lowerChar_toNat] at ht
  have hs : (' ' : Char).toNat = 32 := rfl
  rw [hs] at ht
  split_ifs at ht with h1
  · omega
  · exact charToNat_inj (by rw [ht]; rfl)

/-- Lower-casing is idempotent. -/
theorem lowerChar_idem (c : Char) : lowerChar (lowerChar c) = lowerChar c := by
  apply charToNat_inj
  rw [lowerChar_toNat (lowerChar c), lowerChar_toNat c]
  split_ifs <;> omega

theorem isPySpace_space : isPySpace ' ' = true := by decide

/-! ### `dropWhile` / `takeWhile` helpers -/

theorem dropWhile_first_not {α : Type} {p : α → Bool} :
    ∀ {l : List α} {a : α} {t : List α}, l.dropWhile p = a :: t → p a = false := by
  intro l
  induction l with
  | nil => intro a t h; simp at h
  | cons x xs ih =>
    intro a t h
    rw [List.dropWhile_cons] at h
    split at h
    · exact ih h
    · cases h; simpa using ‹¬ _ = true›

theorem dropWhile_eq_self_of_head {α : Type} {p : α → Bool} {a : α} {t : List α}
    (h : p a = false) : (a :: t).dropWhile p = a :: t := by
  rw [List.dropWhile_cons, h]; simp

theorem dropWhile_all {α : Type} {p : α → Bool} {l : List α}
    (h : ∀ c ∈ l, p c = true) : l.dropWhile p = [] := by
  induction l with
  | nil => rfl
  | cons x xs ih =>
    rw [List.dropWhile_cons, h x (by simp)]
    simp only [if_true]
    exact ih (fun c hc => h c (by simp [hc]))

theorem takeWhile_all_self {α : Type} {p : α → Bool} {l : List α}
    (h : ∀ c ∈ l, p c = true) : l.takeWhile p = l := by
  induction l with
  | nil => rfl
  | cons x xs ih =>
    rw [List.takeWhile_cons, h x (by simp)]
    simp only [if_true]
    rw [ih (fun c hc => h c (by simp [hc]))]

/-- `takeWhile` across a token followed by a failing separator. -/
theorem takeWhile_token {p : Char → Bool} {k v : List Char} {c : Char}
    (hk : ∀ x ∈ k, p x = true) (hc : p c = false) :
    (k ++ c :: v).takeWhile p = k := by
  induction k with
  | nil => simpa [List.takeWhile_cons, hc] using rfl
  | cons x xs ih =>
    rw [List.cons_append, List.takeWhile_cons, hk x (by simp)]
    simp only [if_true]
    rw [ih (fun y hy => hk y (by simp [hy]))]

/-- `dropWhile` across a token up to a failing separator. -/
theorem dropWhile_token {p : Char → Bool} {k v : List Char} {c : Char}
    (hk : ∀ x ∈ k, p x = true) (hc : p c = false) :
    (k ++ c :: v).dropWhile p = c :: v := by
  induction k with
  | nil => simpa [List.dropWhile_cons, hc] using rfl
  | cons x xs ih =>
    rw [List.cons_append, List.dropWhile_cons, hk x (by simp)]
    simp only [if_true]
    exact ih (fun y hy => hk y (by simp [hy]))

/-! ### `strip` lemmas -/

theorem headNotSpace_dropWhile (cs : List Char) :
    headNotSpace (cs.dropWhile isPySpace) = true := by
  rcases h : cs.dropWhile isPySpace with _ | ⟨a, t⟩
  · rfl
  · simp [headNotSpace, dropWhile_first_not h]

theorem headNotSpace_append {a b : List Char} (ha : a ≠ []) :
    headNotSpace (a ++ b) = headNotSpace a := by
  cases a with
  | nil => exact absurd rfl ha
  | cons x xs => rfl

theorem lastNotSpace_append {a b : List Char} (hb : b ≠ []) :
    lastNotSpace (a ++ b) = lastNotSpace b := by
  unfold lastNotSpace
  rw [List.reverse_append]
  exact headNotSpace_append (by simpa using hb)

theorem dropWhile_eq_self_of_headNotSpace {cs : List Char}
    (h : headNotSpace cs = true) : cs.dropWhile isPySpace = cs := by
  cases cs with
  | nil => rfl
  | cons c t =>
    simp only [headNotSpace, Bool.not_eq_true'] at h
    exact dropWhile_eq_self_of_head h

/-- Stripping a string with no surrounding whitespace is the identity. -/
theorem stripL_eq_self {cs : List Char} (h1 : headNotSpace cs = true)
    (h2 : lastNotSpace cs = true) : stripL cs = cs := by
  unfold stripL
  rw [dropWhile_eq_self_of_headNotSpace h1,
    dropWhile_eq_self_of_headNotSpace h2, List.reverse_reverse]

/-- Stripping ignores an all-whitespace prefix. -/
theorem stripL_space_prefix {sp cs : List Char} (h : ∀ c ∈ sp, isPySpace c = true) :
    stripL (sp ++ cs) = stripL cs := by
  unfold stripL
  rw [List.dropWhile_append, dropWhile_all h]
  simp

/-- A token (no whitespace at all) strips to itself. -/
theorem stripL_token {cs : List Char} (h : ∀ c ∈ cs, isPySpace c = false) :
    stripL cs = cs := by
  cases cs with
  | nil => rfl
  | cons c t =>
    refine stripL_eq_self ?_ ?_
    · simp [headNotSpace, h c (by simp)]
    · unfold lastNotSpace
      rcases hr : (c :: t).reverse with _ | ⟨a, s⟩
      · simp at hr
      · have ha : a ∈ c :: t := by
          have h2 : a ∈ (c :: t).reverse := by rw [hr]; simp
          exact List.mem_reverse.mp h2
        simp [headNotSpace, h a ha]

/-- Decomposition: a string is whitespace, its strip, then whitespace. -/
theorem stripL_sandwich (cs : List Char) :
    ∃ s1 s2, cs = s1 ++ stripL cs ++ s2 ∧
      (∀ c ∈ s1, isPySpace c = true) ∧ (∀ c ∈ s2, isPySpace c = true) := by
  refine ⟨cs.takeWhile isPySpace,
    ((cs.dropWhile isPySpace).reverse.takeWhile isPySpace).reverse, ?_, ?_, ?_⟩
  · have h1 : cs.dropWhile isPySpace =
        stripL cs ++ ((cs.dropWhile isPySpace).reverse.takeWhile isPySpace).reverse := by
      conv_lhs => rw [← List.reverse_reverse (cs.dropWhile isPySpace)]
      conv_lhs => rw [← List.takeWhile_append_dropWhile isPySpace
        (cs.dropWhile isPySpace).reverse]
      rw [List.reverse_append]
      rfl
    conv_lhs => rw [← List.takeWhile_append_dropWhile isPySpace cs]
    conv_lhs => rw [h1]
    exact (List.append_assoc _ _ _).symm
  · intro c hc; exact List.mem_takeWhile_imp hc
  · intro c hc
    exact List.mem_takeWhile_imp (by simpa using hc)

theorem all_space_of_stripL {cs : List Char}
    (h : ∀ c ∈ stripL cs, isPySpace c = true) : ∀ c ∈ cs, isPySpace c = true := by
  obtain ⟨s1, s2, hcs, h1, h2⟩ := stripL_sandwich cs
  intro c hc
  rw [hcs] at hc
  simp only [List.mem_append] at hc
  rcases hc with (hc | hc) | hc
  · exact h1 c hc
  · exact h c hc
  · exact h2 c hc

theorem lastNotSpace_stripL (cs : List Char) : lastNotSpace (stripL cs) = true := by
  unfold lastNotSpace stripL
  rw [List.reverse_reverse]
  exact headNotSpace_dropWhile _

/-! ### `splitWs` lemmas -/

theorem splitWsAux_eq_nil_iff : ∀ (cs : List Char) (acc : List Char),
    splitWsAux acc cs = [] ↔ acc = [] ∧ ∀ c ∈ cs, isPySpace c = true := by
  intro cs
  induction cs with
  | nil =>
    intro acc
    simp only [splitWsAux]
    rcases acc with _ | ⟨a, t⟩ <;> simp
  | cons c t ih =>
    intro acc
    simp only [splitWsAux]
    by_cases hc : isPySpace c
    · rw [if_pos hc]
      rcases acc with _ | ⟨a, s⟩
      · simp only [List.isEmpty_nil, if_true]
        rw [ih []]
        simp [hc]
      · simp [hc, ih]
    · rw [if_neg hc]
      rw [ih (c :: acc)]
      simp [hc]

theorem splitWs_ne_nil {cs : List Char} (h : ¬ ∀ c ∈ cs, isPySpace c = true) :
    splitWs cs ≠ [] := by
  unfold splitWs
  rw [Ne, splitWsAux_eq_nil_iff]
  exact fun ⟨_, hall⟩ => h hall

/-- A whitespace-free non-empty chunk extends the current token. -/
theorem splitWsAux_token (t : List Char) (ht : ∀ c ∈ t, isPySpace c = false) :
    ∀ (acc cs : List Char), splitWsAux acc (t ++ cs) = splitWsAux (t.reverse ++ acc) cs := by
  induction t with
  | nil => intro acc cs; simp
  | cons x xs ih =>
    intro acc cs
    rw [show (x :: xs) ++ cs = x :: (xs ++ cs) from rfl]
    simp only [splitWsAux, ht x (by simp), Bool.false_eq_true, if_false]
    rw [ih (fun c hc => ht c (by simp [hc])) (x :: acc) cs]
    simp

/-- The accumulator joins onto the head token: the main invariant behind
`splitWs_join`. -/
theorem splitWsAux_join : ∀ (rest : List (List Char)) (t acc : List Char),
    t ≠ [] → (∀ c ∈ t, isPySpace c = false) →
    (∀ r ∈ rest, r ≠ [] ∧ ∀ c ∈ r, isPySpace c = false) →
    splitWsAux acc (joinL [' '] (t :: rest)) = (acc.reverse ++ t) :: rest := by
  intro rest
  induction rest with
  | nil =>
    intro t acc htne htok _
    have hjt : joinL [' '] [t] = t := rfl
    have h1 := splitWsAux_token t htok acc []
    rw [List.append_nil] at h1
    rw [hjt, h1]
    simp only [splitWsAux]
    have h2 : (t.reverse ++ acc).isEmpty = false := by
      rcases t with _ | _
      · exact absurd rfl htne
      · simp
    rw [h2]
    simp

  | cons r rs ih =>
    intro t acc htne htok hall
    have hj : joinL [' '] (t :: r :: rs) = t ++ ' ' :: joinL [' '] (r :: rs) := rfl
    rw [hj, splitWsAux_token t htok acc (' ' :: joinL [' '] (r :: rs))]
    simp only [splitWsAux, isPySpace_space, if_true]
    have h2 : (t.reverse ++ acc).isEmpty = false := by
      rcases t with _ | _
      · exact absurd rfl htne
      · simp
    rw [h2]
    simp only [Bool.false_eq_true, if_false]
    obtain ⟨hrne, hrtok⟩ := hall r (by simp)
    rw [ih r [] hrne hrtok (fun x hx => hall x (by simp [hx]))]
    simp

/-- `str.split()` of space-joined tokens recovers the tokens. -/
theorem splitWs_join (ts : List (List Char))
    (h : ∀ t ∈ ts, t ≠ [] ∧ ∀ c ∈ t, isPySpace c = false) (hne : ts ≠ []) :
    splitWs (joinL [' '] ts) = ts := by
  rcases ts with _ | ⟨t, rest⟩
  · exact absurd rfl hne
  · obtain ⟨htne, htok⟩ := h t (by simp)
    have := splitWsAux_join rest t [] htne htok (fun x hx => h x (by simp [hx]))
    simpa [splitWs] using this

/-- A single token splits to itself. -/
theorem splitWs_token {t : List Char} (hne : t ≠ [])
    (htok : ∀ c ∈ t, isPySpace c = false) : splitWs t = [t] := by
  have := splitWs_join [t] (by simpa using ⟨hne, htok⟩) (by simp)
  simpa using this


/-! ### `join` / `splitlines` lemmas -/

theorem joinL_pair (sep l : List Char) (m : List Char) (ms : List (List Char)) :
    joinL sep (l :: m :: ms) = l ++ (sep ++ joinL sep (m :: ms)) := rfl

theorem joinL_append_single {sep : List Char} :
    ∀ (M : List (List Char)) (x : List Char), M ≠ [] →
      joinL sep (M ++ [x]) = joinL sep M ++ (sep ++ x) := by
  intro M
  induction M with
  | nil => intro x h; exact absurd rfl h
  | cons m ms ih =>
    intro x _
    rcases ms with _ | ⟨m2, ms2⟩
    · rfl
    · have h2 : joinL sep ((m :: m2 :: ms2) ++ [x]) =
          m ++ (sep ++ joinL sep ((m2 :: ms2) ++ [x])) := rfl
      rw [h2, ih x (by simp), joinL_pair]
      simp [List.append_assoc]

theorem splitNlAux_line : ∀ (l acc cs : List Char), (∀ c ∈ l, c ≠ '\n') →
    splitNlAux acc (l ++ '\n' :: cs) = (acc.reverse ++ l) :: splitNlAux [] cs := by
  intro l
  induction l with
  | nil =>
    intro acc cs _
    simp [splitNlAux]
  | cons x xs ih =>
    intro acc cs h
    rw [show (x :: xs) ++ '\n' :: cs = x :: (xs ++ '\n' :: cs) from rfl]
    simp only [splitNlAux, h x (by simp), if_false]
    rw [ih (x :: acc) cs (fun c hc => h c (by simp [hc]))]
    simp

theorem splitNlAux_noNl : ∀ (l acc : List Char), (∀ c ∈ l, c ≠ '\n') →
    splitNlAux acc l = [acc.reverse ++ l] := by
  intro l
  induction l with
  | nil => intro acc _; simp [splitNlAux]
  | cons x xs ih =>
    intro acc h
    simp only [splitNlAux, h x (by simp), if_false]
    rw [ih (x :: acc) (fun c hc => h c (by simp [hc]))]
    simp

theorem pySplitNl_joinL : ∀ (L : List (List Char)),
    (∀ l ∈ L, ∀ c ∈ l, c ≠ '\n') → L ≠ [] →
    pySplitNl (joinL ['\n'] L) = L := by
  intro L
  induction L with
  | nil => intro _ h; exact absurd rfl h
  | cons l ls ih =>
    intro hall _
    rcases ls with _ | ⟨m, ms⟩
    · show pySplitNl l = [l]
      unfold pySplitNl
      rw [splitNlAux_noNl l [] (hall l (by simp))]
      rfl
    · rw [joinL_pair]
      show splitNlAux [] (l ++ '\n' :: joinL ['\n'] (m :: ms)) = _
      rw [splitNlAux_line l [] (joinL ['\n'] (m :: ms)) (hall l (by simp))]
      have := ih (fun x hx => hall x (by simp [hx])) (by simp)
      unfold pySplitNl at this
      rw [this]
      simp

/-- `splitlines` of newline-joined content lines followed by a final blank
line recovers exactly the content lines. -/
theorem pySplitlines_joinL_blank {L : List (List Char)}
    (hL : ∀ l ∈ L, ∀ c ∈ l, c ≠ '\n') (hne : L ≠ []) :
    pySplitlines (joinL ['\n'] (L ++ [[]])) = L := by
  have hj : joinL ['\n'] (L ++ [[]]) = joinL ['\n'] L ++ ['\n'] := by
    rw [joinL_append_single L [] hne]
    simp
  have hparts : pySplitNl (joinL ['\n'] (L ++ [[]])) = L ++ [[]] := by
    refine pySplitNl_joinL (L ++ [[]]) ?_ (by simp)
    intro l hl
    rcases List.mem_append.mp hl with h | h
    · exact hL l h
    · simp only [List.mem_singleton] at h
      subst h; simp
  have hXne : joinL ['\n'] (L ++ [[]]) ≠ [] := by
    rw [hj]; simp
  have hlast : (joinL ['\n'] (L ++ [[]])).getLast? = some '\n' := by
    rw [hj]; exact List.getLast?_concat _
  unfold pySplitlines
  rcases hX : joinL ['\n'] (L ++ [[]]) with _ | ⟨x, xs⟩
  · exact absurd hX hXne
  · rw [← hX, hlast]
    simp only [if_true]
    rw [hparts]
    exact List.dropLast_concat

/-! ### `rstrip` lemmas -/

theorem rstripL_append_nl (x : List Char) : rstripL (x ++ ['\n']) = rstripL x := by
  unfold rstripL
  rw [List.reverse_append]
  simp [List.dropWhile_cons, isPySpace]

theorem rstripL_eq_self {x : List Char} (h : lastNotSpace x = true) :
    rstripL x = x := by
  unfold rstripL
  rw [dropWhile_eq_self_of_headNotSpace h, List.reverse_reverse]

theorem lastNotSpace_joinL_last {sep : List Char} {M : List (List Char)}
    {l : List Char} (hl : l ≠ []) (h : lastNotSpace l = true) :
    lastNotSpace (joinL sep (M ++ [l])) = true := by
  rcases M with _ | ⟨m, ms⟩
  · simpa using h
  · rw [joinL_append_single (m :: ms) l (by simp)]
    have hsl : sep ++ l ≠ [] := by
      intro hc
      rcases List.append_eq_nil.mp hc with ⟨_, h2⟩
      exact hl h2
    rw [lastNotSpace_append hsl, lastNotSpace_append hl]
    exact h

/-! ### prefix lemmas -/

theorem not_isPrefixOf_append {p l : List Char} (h1 : p.isPrefixOf l = false)
    (h2 : l.isPrefixOf p = false) (t : List Char) :
    p.isPrefixOf (l ++ t) = false := by
  by_contra hc
  simp only [Bool.not_eq_false] at hc
  have hp : p <+: l ++ t := List.isPrefixOf_iff_prefix.mp hc
  have hl : l <+: l ++ t := List.prefix_append l t
  rcases List.prefix_or_prefix_of_prefix hp hl with h | h
  · rw [List.isPrefixOf_iff_prefix.mpr h] at h1; exact absurd h1 (by simp)
  · rw [List.isPrefixOf_iff_prefix.mpr h] at h2; exact absurd h2 (by simp)

theorem isPrefixOf_append_self (p t : List Char) : p.isPrefixOf (p ++ t) = true :=
  List.isPrefixOf_iff_prefix.mpr (List.prefix_append p t)

theorem lowerL_append (a b : List Char) : lowerL (a ++ b) = lowerL a ++ lowerL b := by
  simp [lowerL]

theorem lowerL_cons (c : Char) (t : List Char) :
    lowerL (c :: t) = lowerChar c :: lowerL t := rfl

theorem startsWithL_single {c d : Char} {t : List Char} :
    startsWithL [d] (c :: t) = (d == c) := by
  simp [startsWithL, List.isPrefixOf]

/-! ### dictionary lemmas -/

theorem dictGet_cons_self {k : String} {v : Value} {e : Entry} :
    dictGet ((k, v) :: e) k = some v := by
  simp [dictGet, List.find?_cons]

theorem dictGet_cons_ne {k k' : String} {v : Value} {e : Entry} (h : k' ≠ k) :
    dictGet ((k', v) :: e) k = dictGet e k := by
  simp [dictGet, List.find?_cons, h]

theorem dictGet_eq_none {k : String} {e : Entry}
    (h : k ∉ e.map Prod.fst) : dictGet e k = none := by
  unfold dictGet
  rw [List.find?_eq_none.mpr]
  · rfl
  · intro p hp hk
    apply h
    simp only [decide_eq_true_eq] at hk
    exact hk ▸ List.mem_map_of_mem Prod.fst hp

theorem dict_not_mem_any {k : String} {e : Entry} (h : k ∉ e.map Prod.fst) :
    (e.any (fun p => p.1 = k)) = false := by
  rw [List.any_eq_false]
  intro p hp hk
  apply h
  simp only [decide_eq_true_eq] at hk
  exact hk ▸ List.mem_map_of_mem Prod.fst hp

theorem dictSet_new {k : String} {v : Value} {e : Entry}
    (h : k ∉ e.map Prod.fst) : dictSet e k v = e ++ [(k, v)] := by
  unfold dictSet
  rw [dict_not_mem_any h]
  simp

theorem dictGet_append_last {k : String} {v : Value} {e : Entry}
    (h : k ∉ e.map Prod.fst) : dictGet (e ++ [(k, v)]) k = some v := by
  unfold dictGet
  rw [List.find?_append, List.find?_eq_none.mpr]
  · simp [List.find?_cons]
  · intro p hp hk
    apply h
    simp only [decide_eq_true_eq] at hk
    exact hk ▸ List.mem_map_of_mem Prod.fst hp

theorem dictSet_update_last {k : String} {v0 v : Value} {e : Entry}
    (h : k ∉ e.map Prod.fst) : dictSet (e ++ [(k, v0)]) k v = e ++ [(k, v)] := by
  unfold dictSet
  have hany : ((e ++ [(k, v0)]).any (fun p => p.1 = k)) = true := by
    rw [List.any_append]
    simp
  rw [hany]
  simp only [if_true, List.map_append]
  congr 1
  · have hcg : ∀ p ∈ e, (if p.1 = k then (k, v) else p) = id p := by
      intro p hp
      have hne : ¬ p.1 = k := by
        intro hk
        exact h (hk ▸ List.mem_map_of_mem Prod.fst hp)
      simp [hne]
    rw [List.map_congr_left hcg]
    exact List.map_id e
  · simp


/-! ### unpacking the well-formedness predicates -/

theorem tokenL_iff {cs : List Char} :
    tokenL cs = true ↔ cs ≠ [] ∧ ∀ c ∈ cs, isPySpace c = false := by
  simp [tokenL, List.all_eq_true, List.isEmpty_iff]

theorem headNotSpace_of_token {cs : List Char} (h : tokenL cs = true) :
    headNotSpace cs = true := by
  obtain ⟨hne, hall⟩ := tokenL_iff.mp h
  cases cs with
  | nil => rfl
  | cons c t => simp [headNotSpace, hall c (by simp)]

theorem lastNotSpace_of_token {cs : List Char} (h : tokenL cs = true) :
    lastNotSpace cs = true := by
  obtain ⟨hne, hall⟩ := tokenL_iff.mp h
  unfold lastNotSpace
  rcases hr : cs.reverse with _ | ⟨a, t⟩
  · rfl
  · have ha : a ∈ cs := by
      have h2 : a ∈ cs.reverse := by rw [hr]; simp
      exact List.mem_reverse.mp h2
    simp [headNotSpace, hall a ha]

theorem plainVal_parts {cs : List Char} (h : plainVal cs = true) :
    cs ≠ [] ∧ headNotSpace cs = true ∧ lastNotSpace cs = true := by
  unfold plainVal at h
  simp only [Bool.and_eq_true, Bool.not_eq_true'] at h
  obtain ⟨⟨⟨h1, h2⟩, h3⟩, _⟩ := h
  refine ⟨?_, h2, h3⟩
  intro hc
  rw [hc] at h1
  simp at h1

theorem wfKeyL_parts {k : List Char} (h : wfKeyL k = true) :
    tokenL k = true ∧ (∃ c t, k = c :: t ∧ c ≠ '#') ∧
      List.isPrefixOf "host ".data (lowerL k ++ [' ']) = false ∧
      List.isPrefixOf (lowerL k ++ [' ']) "host ".data = false := by
  unfold wfKeyL at h
  simp only [Bool.and_eq_true, Bool.not_eq_true'] at h
  obtain ⟨⟨⟨h1, h2⟩, h3⟩, h4⟩ := h
  refine ⟨h1, ?_, h3, h4⟩
  rcases k with _ | ⟨c, t⟩
  · simp at h2
  · exact ⟨c, t, rfl, by simpa using h2⟩

theorem mkData (s : String) : String.mk s.data = s := rfl

theorem map_mk_data (l : List String) : (l.map String.data).map String.mk = l := by
  induction l with
  | nil => rfl
  | cons x xs ih => simp only [List.map_cons, mkData, ih]

/-! ### line classification for `parseStep` -/

/-- Blank lines are skipped. -/
theorem parseStep_blank (st : Doc × Option Entry) {raw : List Char}
    (h : stripL raw = []) : Parser.parseStep st raw = Except.ok st := by
  unfold Parser.parseStep
  simp [h]

/-- Comment lines are skipped. -/
theorem parseStep_comment (st : Doc × Option Entry) {raw : List Char} {t : List Char}
    (h : stripL raw = '#' :: t) : Parser.parseStep st raw = Except.ok st := by
  unfold Parser.parseStep
  rw [h]
  simp [startsWithL_single]

/-- A key-value line, with any all-whitespace indentation, records the pair
into the open entry: this is the `elif` branch of the source. -/
theorem parseStep_dir (hosts : Doc) (cur : Entry) (k v : String) (sp : List Char)
    (hsp : ∀ c ∈ sp, isPySpace c = true)
    (hk : wfKeyL k.data = true)
    (hvh : headNotSpace v.data = true) (hvl : lastNotSpace v.data = true)
    (hvne : v.data ≠ []) :
    Parser.parseStep (hosts, some cur) (sp ++ k.data ++ ' ' :: v.data) =
      Except.ok (hosts, some (
        match dictGet cur k with
        | some (Value.seq vs) => dictSet cur k (Value.seq (vs ++ [v]))
        | some (Value.str v0) => dictSet cur k (Value.seq [v0, v])
        | none => dictSet cur k (Value.str v))) := by
  obtain ⟨htok, ⟨c0, t0, hk0, hc0⟩, hpre1, hpre2⟩ := wfKeyL_parts hk
  obtain ⟨hkne, hkall⟩ := tokenL_iff.mp htok
  have hline : stripL (sp ++ k.data ++ ' ' :: v.data) = k.data ++ ' ' :: v.data := by
    rw [List.append_assoc, stripL_space_prefix hsp]
    refine stripL_eq_self ?_ ?_
    · rw [headNotSpace_append hkne]
      exact headNotSpace_of_token htok
    · rw [lastNotSpace_append (by simp)]
      unfold lastNotSpace
      rw [List.reverse_cons]
      rw [headNotSpace_append (by simpa using hvne)]
      exact hvl
  have hne : (k.data ++ ' ' :: v.data).isEmpty = false := by
    rw [hk0]; rfl
  have hcomment : startsWithL ['#'] (k.data ++ ' ' :: v.data) = false := by
    rw [hk0]
    rw [show (c0 :: t0) ++ ' ' :: v.data = c0 :: (t0 ++ ' ' :: v.data) from rfl]
    rw [startsWithL_single]
    simp only [beq_eq_false_iff_ne]
    exact fun hc => hc0 hc.symm
  have hhost : startsWithL "host ".data (lowerL (k.data ++ ' ' :: v.data)) = false := by
    unfold startsWithL
    have hsplit : lowerL (k.data ++ ' ' :: v.data) =
        (lowerL k.data ++ [' ']) ++ lowerL v.data := by
      rw [lowerL_append, List.append_assoc]
      rfl
    rw [hsplit]
    exact not_isPrefixOf_append hpre1 hpre2 _
  have hcontains : (k.data ++ ' ' :: v.data).contains ' ' = true := by
    rw [List.contains_eq_any_beq, List.any_append, List.any_cons]
    simp
  have hnospace : ∀ x ∈ k.data, (decide ¬(x = ' ')) = true := by
    intro x hx
    have := hkall x hx
    simp only [decide_not, decide_eq_true_eq, Bool.not_eq_true', decide_eq_false_iff_not]
    intro hc
    rw [hc] at this
    exact absurd this (by simp [isPySpace])
  have htake : (k.data ++ ' ' :: v.data).takeWhile (fun c => c ≠ ' ') = k.data :=
    takeWhile_token hnospace (by simp)
  have hdrop : (k.data ++ ' ' :: v.data).dropWhile (fun c => c ≠ ' ') = ' ' :: v.data :=
    dropWhile_token hnospace (by simp)
  have hstripk : stripL k.data = k.data := stripL_token hkall
  have hstripv : stripL v.data = v.data := stripL_eq_self hvh hvl
  unfold Parser.parseStep
  simp only [hline, hne, Bool.false_eq_true, if_false, hcomment, hhost, hcontains,
    if_true, htake, hdrop, List.drop_succ_cons, List.drop_zero, hstripk, hstripv, mkData]

/-- `parseStep_dir` when the key is new to the entry. -/
theorem parseStep_dir_new (hosts : Doc) (cur : Entry) (k v : String) (sp : List Char)
    (hsp : ∀ c ∈ sp, isPySpace c = true) (hk : wfKeyL k.data = true)
    (hvh : headNotSpace v.data = true) (hvl : lastNotSpace v.data = true)
    (hvne : v.data ≠ []) (hget : dictGet cur k = none) :
    Parser.parseStep (hosts, some cur) (sp ++ k.data ++ ' ' :: v.data) =
      Except.ok (hosts, some (dictSet cur k (Value.str v))) := by
  rw [parseStep_dir hosts cur k v sp hsp hk hvh hvl hvne, hget]

/-- `parseStep_dir` when the key holds a single string: it becomes a
two-element list. -/
theorem parseStep_dir_str (hosts : Doc) (cur : Entry) (k v : String) (sp : List Char)
    (hsp : ∀ c ∈ sp, isPySpace c = true) (hk : wfKeyL k.data = true)
    (hvh : headNotSpace v.data = true) (hvl : lastNotSpace v.data = true)
    (hvne : v.data ≠ []) {v0 : String} (hget : dictGet cur k = some (Value.str v0)) :
    Parser.parseStep (hosts, some cur) (sp ++ k.data ++ ' ' :: v.data) =
      Except.ok (hosts, some (dictSet cur k (Value.seq [v0, v]))) := by
  rw [parseStep_dir hosts cur k v sp hsp hk hvh hvl hvne, hget]

/-- `parseStep_dir` when the key already holds a list: the value is
appended. -/
theorem parseStep_dir_seq (hosts : Doc) (cur : Entry) (k v : String) (sp : List Char)
    (hsp : ∀ c ∈ sp, isPySpace c = true) (hk : wfKeyL k.data = true)
    (hvh : headNotSpace v.data = true) (hvl : lastNotSpace v.data = true)
    (hvne : v.data ≠ []) {vs : List String}
    (hget : dictGet cur k = some (Value.seq vs)) :
    Parser.parseStep (hosts, some cur) (sp ++ k.data ++ ' ' :: v.data) =
      Except.ok (hosts, some (dictSet cur k (Value.seq (vs ++ [v])))) := by
  rw [parseStep_dir hosts cur k v sp hsp hk hvh hvl hvne, hget]

/-- A `Host ` line whose remainder `X` is already stripped: closes the open
entry and opens a new one built from the whitespace-split of `X`. -/
theorem parseStep_hostline (hosts : Doc) (curOpt : Option Entry) (X : List Char)
    (hXne : X ≠ []) (hhead : headNotSpace X = true) (hlast : lastNotSpace X = true)
    {n : List Char} {ns : List (List Char)} (hsplit : splitWs X = n :: ns) :
    Parser.parseStep (hosts, curOpt) ("Host ".data ++ X) =
      Except.ok (hosts ++ (match curOpt with | some e => [e] | none => []),
        some [("Host",
          if ns.isEmpty then Value.str (String.mk n)
          else Value.seq ((n :: ns).map String.mk))]) := by
  have hstripX : stripL X = X := stripL_eq_self hhead hlast
  have hline : stripL ("Host ".data ++ X) = "Host ".data ++ X := by
    refine stripL_eq_self ?_ ?_
    · rfl
    · rw [lastNotSpace_append hXne]; exact hlast
  have hne : ("Host ".data ++ X).isEmpty = false := rfl
  have hcomment : startsWithL ['#'] ("Host ".data ++ X) = false := by
    rw [show "Host ".data ++ X = 'H' :: ("ost ".data ++ X) from rfl]
    rw [startsWithL_single]
    decide
  have hlow : lowerL ("Host ".data ++ X) = "host ".data ++ lowerL X := by
    rw [lowerL_append]
    rfl
  have hhostpre : startsWithL "host ".data (lowerL ("Host ".data ++ X)) = true := by
    rw [hlow]
    exact isPrefixOf_append_self _ _
  have hdrop5 : ("Host ".data ++ X).drop 5 = X := by
    rw [show (5 : Nat) = "Host ".data.length from rfl]
    exact List.drop_left _ _
  unfold Parser.parseStep
  simp only [hline, hne, Bool.false_eq_true, if_false, hcomment, hhostpre, if_true,
    hdrop5, hstripX, hsplit]

/-- `parseStep` on the serialised `Host` line of a well-formed host value. -/
theorem parseStep_host (hosts : Doc) (curOpt : Option Entry) (hv : Value)
    (h : wfHostValue hv = true) :
    Parser.parseStep (hosts, curOpt) (specHostText hv) =
      Except.ok (hosts ++ (match curOpt with | some e => [e] | none => []),
        some [("Host", hv)]) := by
  rcases hv with s | ps
  · obtain ⟨hne, hall⟩ := tokenL_iff.mp (by simpa [wfHostValue] using h)
    have := parseStep_hostline hosts curOpt s.data hne
      (headNotSpace_of_token (tokenL_iff.mpr ⟨hne, hall⟩))
      (lastNotSpace_of_token (tokenL_iff.mpr ⟨hne, hall⟩))
      (splitWs_token hne hall)
    rw [show specHostText (Value.str s) = "Host ".data ++ s.data from rfl, this]
    rfl
  · have hwf : 2 ≤ ps.length ∧ ∀ x ∈ ps, tokenL x.data = true := by
      unfold wfHostValue at h
      simp only [Bool.and_eq_true, decide_eq_true_eq, List.all_eq_true] at h
      exact h
    obtain ⟨hlen, hall⟩ := hwf
    -- ps has at least two patterns
    rcases ps with _ | ⟨p, qs⟩
    · simp at hlen
    rcases qs with _ | ⟨q, rs⟩
    · simp at hlen
    have htokens : ∀ t ∈ (p :: q :: rs).map String.data,
        t ≠ [] ∧ ∀ c ∈ t, isPySpace c = false := by
      intro t ht
      obtain ⟨x, hx, hxt⟩ := List.mem_map.mp ht
      exact hxt ▸ tokenL_iff.mp (hall x hx)
    have hXsplit : splitWs (joinL [' '] ((p :: q :: rs).map String.data)) =
        (p :: q :: rs).map String.data :=
      splitWs_join _ htokens (by simp)
    have hXne : joinL [' '] ((p :: q :: rs).map String.data) ≠ [] := by
      simp only [List.map_cons]
      rw [joinL_pair]
      intro hc
      rcases List.append_eq_nil.mp hc with ⟨h1, _⟩
      exact (tokenL_iff.mp (hall p (by simp))).1 h1
    have hXhead : headNotSpace (joinL [' '] ((p :: q :: rs).map String.data)) = true := by
      simp only [List.map_cons]
      rw [joinL_pair]
      rw [headNotSpace_append (tokenL_iff.mp (hall p (by simp))).1]
      exact headNotSpace_of_token (hall p (by simp))
    have hXlast : lastNotSpace (joinL [' '] ((p :: q :: rs).map String.data)) = true := by
      obtain ⟨M, l, hMl⟩ := List.eq_nil_or_concat ((p :: q :: rs).map String.data)
        |>.resolve_left (by simp)
      have hlmem : l ∈ (p :: q :: rs).map String.data := by rw [hMl]; simp
      obtain ⟨x, hx, hxl⟩ := List.mem_map.mp hlmem
      rw [hMl, List.concat_eq_append]
      exact lastNotSpace_joinL_last
        (hxl ▸ (tokenL_iff.mp (hall x hx)).1)
        (hxl ▸ lastNotSpace_of_token (hall x hx))
    have hsplit2 : splitWs (joinL [' '] ((p :: q :: rs).map String.data)) =
        p.data :: (q :: rs).map String.data := by rw [hXsplit]; rfl
    have hstep := parseStep_hostline hosts curOpt _ hXne hXhead hXlast hsplit2
    rw [show specHostText (Value.seq (p :: q :: rs)) =
      "Host ".data ++ joinL [' '] ((p :: q :: rs).map String.data) from rfl, hstep]
    have hmap : ((p.data :: (q :: rs).map String.data).map String.mk) = p :: q :: rs := by
      rw [show p.data :: (q :: rs).map String.data =
        (p :: q :: rs).map String.data from rfl]
      exact map_mk_data _
    have hcond : ((q :: rs).map String.data).isEmpty = false := rfl
    rw [hcond]
    simp only [Bool.false_eq_true, if_false]
    rw [hmap]


/-! ### folding `parseStep` over serialised lines -/

theorem foldE_nil {σ α : Type} (f : σ → α → Except String σ) (b : σ) :
    List.foldlM f b [] = Except.ok b := rfl

theorem foldE_cons {σ α : Type} {f : σ → α → Except String σ} {b b2 : σ} {a : α}
    (l : List α) (h : f b a = Except.ok b2) :
    List.foldlM f b (a :: l) = List.foldlM f b2 l := by
  rw [List.foldlM_cons, h]
  rfl

theorem foldE_append_ok {σ α : Type} {f : σ → α → Except String σ} {b b2 : σ}
    {l1 : List α} (l2 : List α) (h : List.foldlM f b l1 = Except.ok b2) :
    List.foldlM f b (l1 ++ l2) = List.foldlM f b2 l2 := by
  rw [List.foldlM_append, h]
  rfl

/-- Additional value lines for a key already holding a trailing list extend
that list in order. -/
theorem fold_seq_extend (hosts : Doc) (k : String) :
    ∀ (vt : List String) (ws : List String) (e : Entry),
    k ∉ e.map Prod.fst → wfKeyL k.data = true →
    (∀ x ∈ vt, plainVal x.data = true) →
    List.foldlM Parser.parseStep (hosts, some (e ++ [(k, Value.seq ws)]))
      (vt.map (fun it => "    ".data ++ k.data ++ ' ' :: it.data)) =
      Except.ok (hosts, some (e ++ [(k, Value.seq (ws ++ vt))])) := by
  intro vt
  induction vt with
  | nil =>
    intro ws e hmem hk _
    rw [List.append_nil]
    rfl
  | cons v1 vt ih =>
    intro ws e hmem hk hall
    obtain ⟨hvne, hvh, hvl⟩ := plainVal_parts (hall v1 (by simp))
    have hstep := parseStep_dir_seq hosts (e ++ [(k, Value.seq ws)]) k v1 "    ".data
      (by decide) hk hvh hvl hvne (dictGet_append_last hmem)
    rw [dictSet_update_last hmem] at hstep
    rw [List.map_cons]
    rw [foldE_cons _ hstep]
    rw [ih (ws ++ [v1]) e hmem hk (fun x hx => hall x (by simp [hx]))]
    simp [List.append_assoc]

/-- The serialised lines of one key-value pair append that pair to the open
entry. -/
theorem fold_valueLines (hosts : Doc) (e : Entry) (k : String) (v : Value)
    (hmem : k ∉ e.map Prod.fst) (hk : wfKeyL k.data = true) (hv : wfValue v = true) :
    List.foldlM Parser.parseStep (hosts, some e) (Parser.valueLines k v) =
      Except.ok (hosts, some (e ++ [(k, v)])) := by
  rcases v with s | vs
  · obtain ⟨hvne, hvh, hvl⟩ := plainVal_parts (by simpa [wfValue] using hv)
    have hstep := parseStep_dir_new hosts e k s "    ".data (by decide) hk hvh hvl hvne
      (dictGet_eq_none hmem)
    rw [dictSet_new hmem] at hstep
    show List.foldlM Parser.parseStep (hosts, some e)
      [("    ".data ++ k.data ++ ' ' :: s.data)] = _
    rw [foldE_cons _ hstep, foldE_nil]
  · have hwf : 2 ≤ vs.length ∧ ∀ x ∈ vs, plainVal x.data = true := by
      unfold wfValue at hv
      simp only [Bool.and_eq_true, decide_eq_true_eq, List.all_eq_true] at hv
      exact hv
    obtain ⟨hlen, hall⟩ := hwf
    rcases vs with _ | ⟨v1, vs1⟩
    · simp at hlen
    rcases vs1 with _ | ⟨v2, vt⟩
    · simp at hlen
    obtain ⟨h1ne, h1h, h1l⟩ := plainVal_parts (hall v1 (by simp))
    obtain ⟨h2ne, h2h, h2l⟩ := plainVal_parts (hall v2 (by simp))
    have hstep1 := parseStep_dir_new hosts e k v1 "    ".data (by decide) hk h1h h1l h1ne
      (dictGet_eq_none hmem)
    rw [dictSet_new hmem] at hstep1
    have hstep2 := parseStep_dir_str hosts (e ++ [(k, Value.str v1)]) k v2 "    ".data
      (by decide) hk h2h h2l h2ne (dictGet_append_last hmem)
    rw [dictSet_update_last hmem] at hstep2
    show List.foldlM Parser.parseStep (hosts, some e)
      (("    ".data ++ k.data ++ ' ' :: v1.data) ::
        ("    ".data ++ k.data ++ ' ' :: v2.data) ::
        vt.map (fun it => "    ".data ++ k.data ++ ' ' :: it.data)) = _
    rw [foldE_cons _ hstep1, foldE_cons _ hstep2]
    rw [fold_seq_extend hosts k vt [v1, v2] e hmem hk
      (fun x hx => hall x (by simp [hx]))]
    rfl

/-- The serialised lines of an entry's tail rebuild the tail in key order. -/
theorem fold_tail (hosts : Doc) :
    ∀ (rest : List (String × Value)) (cur : Entry),
    (cur.map Prod.fst ++ rest.map Prod.fst).Nodup →
    (∀ p ∈ rest, wfKeyL p.1.data = true ∧ wfValue p.2 = true) →
    List.foldlM Parser.parseStep (hosts, some cur)
      (rest.flatMap (fun p => Parser.valueLines p.1 p.2)) =
      Except.ok (hosts, some (cur ++ rest)) := by
  intro rest
  induction rest with
  | nil =>
    intro cur _ _
    rw [List.append_nil]
    rfl
  | cons p rest ih =>
    intro cur hnd hall
    obtain ⟨k, v⟩ := p
    have hmem : k ∉ cur.map Prod.fst := by
      rw [List.nodup_append] at hnd
      intro hc
      exact hnd.2.2 hc (by simp)
    have h1 := fold_valueLines hosts cur k v hmem (hall (k, v) (by simp)).1
      (hall (k, v) (by simp)).2
    rw [show (((k, v) :: rest).flatMap (fun p => Parser.valueLines p.1 p.2)) =
      Parser.valueLines k v ++ rest.flatMap (fun p => Parser.valueLines p.1 p.2) from rfl]
    rw [foldE_append_ok _ h1]
    have hnd2 : ((cur ++ [(k, v)]).map Prod.fst ++ rest.map Prod.fst).Nodup := by
      rw [List.map_append]
      have : cur.map Prod.fst ++ [(k, v)].map Prod.fst ++ rest.map Prod.fst =
          cur.map Prod.fst ++ ((k, v).1 :: rest.map Prod.fst) := by
        simp
      rw [this]
      simpa using hnd
    rw [ih (cur ++ [(k, v)]) hnd2 (fun q hq => hall q (by simp [hq]))]
    simp [List.append_assoc]


/-! ### entry- and document-level reconstruction -/

theorem wfEntry_parts {e : Entry} (h : wfEntry e = true) :
    ∃ hv rest, e = ("Host", hv) :: rest ∧ wfHostValue hv = true ∧
      (∀ p ∈ rest, wfKeyL p.1.data = true ∧ wfValue p.2 = true) ∧
      (("Host" : String) :: rest.map Prod.fst).Nodup := by
  rcases e with _ | ⟨⟨k, hv⟩, rest⟩
  · simp [wfEntry] at h
  · unfold wfEntry at h
    simp only [Bool.and_eq_true, decide_eq_true_eq, List.all_eq_true] at h
    obtain ⟨⟨⟨hk, h1⟩, h2⟩, h3⟩ := h
    subst hk
    exact ⟨hv, rest, rfl, h1,
      fun p hp => by simpa [Bool.and_eq_true] using h2 p hp, h3⟩

theorem hostLineOf_wf (hv : Value) (rest : List (String × Value)) :
    Parser.hostLineOf (("Host", hv) :: rest) = Except.ok (specHostText hv) := by
  cases hv <;> simp [Parser.hostLineOf, dictGet_cons_self, specHostText]

/-- For a well-formed entry, the serialiser's per-entry lines are exactly the
lines the spec describes. -/
theorem entryLines_wf {e : Entry} (h : wfEntry e = true) :
    Parser.entryLines e = Except.ok (specEntryLines e) := by
  obtain ⟨hv, rest, he, hhv, hrest, hnd⟩ := wfEntry_parts h
  subst he
  unfold Parser.entryLines
  rw [hostLineOf_wf]
  have hmap : (((("Host", hv) :: rest)).map
      (fun p => if p.1 = "Host" then [] else Parser.valueLines p.1 p.2)) =
      [] :: rest.map (fun p => Parser.valueLines p.1 p.2) := by
    rw [List.map_cons]
    simp only [if_pos rfl]
    congr 1
    apply List.map_congr_left
    intro p hp
    have hne : p.1 ≠ "Host" := by
      intro hc
      have : ("Host" : String) ∈ rest.map Prod.fst := hc ▸ List.mem_map_of_mem Prod.fst hp
      rw [List.nodup_cons] at hnd
      exact hnd.1 this
    simp [hne]
  rw [hmap]
  show Except.ok (specHostText hv ::
    (rest.map (fun p => Parser.valueLines p.1 p.2)).flatten ++ [[]]) =
    Except.ok (specEntryLines (("Host", hv) :: rest))
  rfl

/-- Folding the parser over one entry's serialised lines closes the open
entry and leaves the rebuilt entry open. -/
theorem fold_entry {e : Entry} (h : wfEntry e = true) (hosts : Doc)
    (curOpt : Option Entry) :
    List.foldlM Parser.parseStep (hosts, curOpt) (specEntryLines e) =
      Except.ok (Parser.closeState (hosts, curOpt), some e) := by
  obtain ⟨hv, rest, he, hhv, hrest, hnd⟩ := wfEntry_parts h
  subst he
  show List.foldlM Parser.parseStep (hosts, curOpt)
    (specHostText hv :: (rest.flatMap (fun p => Parser.valueLines p.1 p.2) ++ [[]])) = _
  rw [foldE_cons _ (parseStep_host hosts curOpt hv hhv)]
  have htail := fold_tail (hosts ++ (match curOpt with | some e => [e] | none => []))
    rest [("Host", hv)] (by simpa using hnd) hrest
  rw [foldE_append_ok _ htail]
  rw [foldE_cons _ (parseStep_blank _ (show stripL [] = [] from rfl)), foldE_nil]
  rfl

/-- Folding the parser over the whole document's serialised lines rebuilds
the document. -/
theorem fold_doc : ∀ (d : Doc), wfDoc d = true →
    ∀ (st : Doc × Option Entry),
    ∃ st2, List.foldlM Parser.parseStep st (specLines d) = Except.ok st2 ∧
      Parser.closeState st2 = Parser.closeState st ++ d := by
  intro d
  induction d with
  | nil =>
    intro _ st
    exact ⟨st, foldE_nil _ _, by simp⟩
  | cons e rest ih =>
    intro hwf st
    have hwfe : wfEntry e = true := by
      unfold wfDoc at hwf
      simp only [List.all_eq_true] at hwf
      exact hwf e (by simp)
    have hwfrest : wfDoc rest = true := by
      unfold wfDoc at hwf ⊢
      simp only [List.all_eq_true] at hwf ⊢
      exact fun x hx => hwf x (by simp [hx])
    obtain ⟨hosts, curOpt⟩ := st
    rw [show specLines (e :: rest) = specEntryLines e ++ specLines rest from rfl]
    rw [foldE_append_ok _ (fold_entry hwfe hosts curOpt)]
    obtain ⟨st2, hfold, hclose⟩ := ih hwfrest (Parser.closeState (hosts, curOpt), some e)
    refine ⟨st2, hfold, ?_⟩
    rw [hclose]
    show Parser.closeState (hosts, curOpt) ++ [e] ++ rest = _
    simp [List.append_assoc]


/-! ### structure of the serialised line list -/

theorem ne_nl_of_not_space {c : Char} (h : isPySpace c = false) : c ≠ '\n' := by
  intro hc
  rw [hc] at h
  exact absurd h (by decide)

theorem mem_joinL {c : Char} {sep : List Char} :
    ∀ {L : List (List Char)}, c ∈ joinL sep L → c ∈ sep ∨ ∃ l ∈ L, c ∈ l := by
  intro L
  induction L with
  | nil => intro h; simp [joinL] at h
  | cons l ls ih =>
    intro h
    rcases ls with _ | ⟨m, ms⟩
    · exact Or.inr ⟨l, by simp, h⟩
    · rw [joinL_pair] at h
      rcases List.mem_append.mp h with h | h
      · exact Or.inr ⟨l, by simp, h⟩
      · rcases List.mem_append.mp h with h | h
        · exact Or.inl h
        · rcases ih h with h | ⟨x, hx, hcx⟩
          · exact Or.inl h
          · exact Or.inr ⟨x, by simp [hx], hcx⟩

theorem wfHostValue_tokens {ps : List String} (h : wfHostValue (Value.seq ps) = true) :
    2 ≤ ps.length ∧ ∀ x ∈ ps, tokenL x.data = true := by
  unfold wfHostValue at h
  simp only [Bool.and_eq_true, decide_eq_true_eq, List.all_eq_true] at h
  exact h

theorem specHostText_noNl {hv : Value} (h : wfHostValue hv = true) :
    ∀ c ∈ specHostText hv, c ≠ '\n' := by
  intro c hc
  rcases hv with s | ps
  · rcases List.mem_append.mp hc with h1 | h1
    · intro he; subst he; revert h1; decide
    · exact ne_nl_of_not_space ((tokenL_iff.mp (by simpa [wfHostValue] using h)).2 c h1)
  · rcases List.mem_append.mp hc with h1 | h1
    · intro he; subst he; revert h1; decide
    · rcases mem_joinL h1 with h2 | ⟨l, hl, hcl⟩
      · intro he; subst he; revert h2; decide
      · obtain ⟨x, hx, hxl⟩ := List.mem_map.mp hl
        exact ne_nl_of_not_space
          ((tokenL_iff.mp ((wfHostValue_tokens h).2 x hx)).2 c (hxl ▸ hcl))

theorem plainVal_all {cs : List Char} (h : plainVal cs = true) :
    ∀ c ∈ cs, c = ' ' ∨ isPySpace c = false := by
  unfold plainVal at h
  simp only [Bool.and_eq_true, List.all_eq_true] at h
  intro c hc
  have := h.2 c hc
  simpa using this

theorem val_char_ne_nl {cs : List Char} (h : plainVal cs = true) :
    ∀ c ∈ cs, c ≠ '\n' := by
  intro c hc
  rcases plainVal_all h c hc with h1 | h1
  · subst h1; decide
  · exact ne_nl_of_not_space h1

theorem valueLines_noNl {k : String} {v : Value} (hk : wfKeyL k.data = true)
    (hv : wfValue v = true) :
    ∀ l ∈ Parser.valueLines k v, ∀ c ∈ l, c ≠ '\n' := by
  have hkall := (tokenL_iff.mp (wfKeyL_parts hk).1).2
  have hsp4 : ∀ x ∈ "    ".data, x = ' ' := by decide
  have main : ∀ (it : String), plainVal it.data = true →
      ∀ c ∈ "    ".data ++ k.data ++ ' ' :: it.data, c ≠ '\n' := by
    intro it hit c hc
    rcases List.mem_append.mp hc with h1 | h1
    · rcases List.mem_append.mp h1 with h2 | h2
      · rw [hsp4 c h2]; decide
      · exact ne_nl_of_not_space (hkall c h2)
    · rcases List.mem_cons.mp h1 with h3 | h3
      · subst h3; decide
      · exact val_char_ne_nl hit c h3
  intro l hl
  rcases v with s | vs
  · simp only [Parser.valueLines, List.mem_singleton] at hl
    subst hl
    exact main s (by simpa [wfValue] using hv)
  · simp only [Parser.valueLines, List.mem_map] at hl
    obtain ⟨it, hit, hl⟩ := hl
    subst hl
    have hall : ∀ x ∈ vs, plainVal x.data = true := by
      unfold wfValue at hv
      simp only [Bool.and_eq_true, decide_eq_true_eq, List.all_eq_true] at hv
      exact hv.2
    exact main it (hall it hit)

theorem wfDoc_mem {d : Doc} (h : wfDoc d = true) {e : Entry} (he : e ∈ d) :
    wfEntry e = true := by
  unfold wfDoc at h
  simp only [List.all_eq_true] at h
  exact h e he

/-- No serialised line contains a newline. -/
theorem specLines_noNl {d : Doc} (h : wfDoc d = true) :
    ∀ l ∈ specLines d, ∀ c ∈ l, c ≠ '\n' := by
  intro l hl
  obtain ⟨e, he, hle⟩ := List.mem_flatMap.mp hl
  obtain ⟨hv, rest, hee, hhv, hrest, hnd⟩ := wfEntry_parts (wfDoc_mem h he)
  subst hee
  rw [show specEntryLines (("Host", hv) :: rest) =
    specHostText hv :: (rest.flatMap (fun p => Parser.valueLines p.1 p.2) ++ [[]])
    from rfl] at hle
  rcases List.mem_cons.mp hle with h1 | h1
  · subst h1; exact specHostText_noNl hhv
  · rcases List.mem_append.mp h1 with h2 | h2
    · obtain ⟨p, hp, hlp⟩ := List.mem_flatMap.mp h2
      exact valueLines_noNl (hrest p hp).1 (hrest p hp).2 l hlp
    · simp only [List.mem_singleton] at h2
      subst h2
      intro c hc
      simp at hc

theorem specHostText_facts {hv : Value} (h : wfHostValue hv = true) :
    specHostText hv ≠ [] ∧ lastNotSpace (specHostText hv) = true := by
  rcases hv with s | ps
  · have htok := (by simpa [wfHostValue] using h : tokenL s.data = true)
    refine ⟨by simp [specHostText], ?_⟩
    show lastNotSpace ("Host ".data ++ s.data) = true
    rw [lastNotSpace_append (tokenL_iff.mp htok).1]
    exact lastNotSpace_of_token htok
  · obtain ⟨hlen, hall⟩ := wfHostValue_tokens h
    rcases ps with _ | ⟨p, qs⟩
    · simp at hlen
    have hXne : joinL [' '] ((p :: qs).map String.data) ≠ [] := by
      rcases qs with _ | ⟨q, rs⟩
      · show p.data ≠ []
        exact (tokenL_iff.mp (hall p (by simp))).1
      · simp only [List.map_cons]
        rw [joinL_pair]
        intro hc
        rcases List.append_eq_nil.mp hc with ⟨h1, _⟩
        exact (tokenL_iff.mp (hall p (by simp))).1 h1
    refine ⟨by simp [specHostText], ?_⟩
    show lastNotSpace ("Host ".data ++ joinL [' '] ((p :: qs).map String.data)) = true
    rw [lastNotSpace_append hXne]
    obtain ⟨M, l, hMl⟩ := (List.eq_nil_or_concat ((p :: qs).map String.data)).resolve_left
      (by simp)
    have hlmem : l ∈ (p :: qs).map String.data := by rw [hMl]; simp
    obtain ⟨x, hx, hxl⟩ := List.mem_map.mp hlmem
    rw [hMl, List.concat_eq_append]
    exact lastNotSpace_joinL_last (hxl ▸ (tokenL_iff.mp (hall x hx)).1)
      (hxl ▸ lastNotSpace_of_token (hall x hx))

theorem valueLines_facts {k : String} {v : Value} (hk : wfKeyL k.data = true)
    (hv : wfValue v = true) :
    ∀ l ∈ Parser.valueLines k v, l ≠ [] ∧ lastNotSpace l = true := by
  have main : ∀ (it : String), plainVal it.data = true →
      ("    ".data ++ k.data ++ ' ' :: it.data) ≠ [] ∧
        lastNotSpace ("    ".data ++ k.data ++ ' ' :: it.data) = true := by
    intro it hit
    obtain ⟨hne, hh, hl⟩ := plainVal_parts hit
    refine ⟨by simp, ?_⟩
    rw [lastNotSpace_append (by simp)]
    unfold lastNotSpace
    rw [List.reverse_cons, headNotSpace_append (by simpa using hne)]
    exact hl
  intro l hl
  rcases v with s | vs
  · simp only [Parser.valueLines, List.mem_singleton] at hl
    subst hl
    exact main s (by simpa [wfValue] using hv)
  · simp only [Parser.valueLines, List.mem_map] at hl
    obtain ⟨it, hit, hl⟩ := hl
    subst hl
    have hall : ∀ x ∈ vs, plainVal x.data = true := by
      unfold wfValue at hv
      simp only [Bool.and_eq_true, decide_eq_true_eq, List.all_eq_true] at hv
      exact hv.2
    exact main it (hall it hit)

/-- The serialised lines of a non-empty well-formed document are some lines,
then a final non-blank content line, then the final blank separator. -/
theorem specLines_decomp : ∀ (d : Doc), wfDoc d = true → d ≠ [] →
    ∃ M lst, specLines d = (M ++ [lst]) ++ [[]] ∧ lst ≠ [] ∧
      lastNotSpace lst = true := by
  intro d
  induction d with
  | nil => intro _ h; exact absurd rfl h
  | cons e rest ih =>
    intro hwf _
    rcases rest with _ | ⟨e2, rest2⟩
    · obtain ⟨hv, rtail, hee, hhv, hrest, hnd⟩ :=
        wfEntry_parts (wfDoc_mem hwf (List.mem_cons_self e []))
      subst hee
      have hlines : specLines [("Host", hv) :: rtail] =
          specHostText hv ::
            (rtail.flatMap (fun p => Parser.valueLines p.1 p.2) ++ [[]]) := by
        show specEntryLines (("Host", hv) :: rtail) ++ [] = _
        rw [List.append_nil]
        rfl
      rcases hD : rtail.flatMap (fun p => Parser.valueLines p.1 p.2) with _ | _
      · refine ⟨[], specHostText hv, ?_, (specHostText_facts hhv).1,
          (specHostText_facts hhv).2⟩
        rw [hlines, hD]
        simp
      · obtain ⟨D2, dl, hD2⟩ := (List.eq_nil_or_concat
          (rtail.flatMap (fun p => Parser.valueLines p.1 p.2))).resolve_left
          (by rw [hD]; simp)
        have hdl : dl ∈ rtail.flatMap (fun p => Parser.valueLines p.1 p.2) := by
          rw [hD2]; simp
        obtain ⟨p, hp, hdlp⟩ := List.mem_flatMap.mp hdl
        obtain ⟨hdlne, hdllast⟩ := valueLines_facts (hrest p hp).1 (hrest p hp).2 dl hdlp
        refine ⟨specHostText hv :: D2, dl, ?_, hdlne, hdllast⟩
        rw [hlines, hD2, List.concat_eq_append]
        simp [List.append_assoc]
    · obtain ⟨M2, lst, hdec, hlne, hlast⟩ := ih (by
        unfold wfDoc at hwf ⊢
        simp only [List.all_eq_true] at hwf ⊢
        exact fun x hx => hwf x (by simp [hx])) (by simp)
      refine ⟨specEntryLines e ++ M2, lst, ?_, hlne, hlast⟩
      rw [show specLines (e :: e2 :: rest2) =
        specEntryLines e ++ specLines (e2 :: rest2) from rfl]
      rw [hdec]
      simp [List.append_assoc]

/-- For a non-empty well-formed document, the serialiser output is exactly
the newline-join of the spec's line sequence (the `rstrip` removes the one
newline the final blank separator contributes, and the single appended
newline restores it). -/
theorem format_wf {d : Doc} (h : wfDoc d = true) (hne : d ≠ []) :
    Parser.format_ssh_config d =
      Except.ok (String.mk (joinL ['\n'] (specLines d))) := by
  have hmapM : ∀ (dd : Doc), wfDoc dd = true →
      dd.mapM Parser.entryLines = Except.ok (dd.map specEntryLines) := by
    intro dd
    induction dd with
    | nil => intro _; rfl
    | cons e rest ih =>
      intro hwf
      rw [List.mapM_cons, entryLines_wf (wfDoc_mem hwf (by simp)), ih (by
        unfold wfDoc at hwf ⊢
        simp only [List.all_eq_true] at hwf ⊢
        exact fun x hx => hwf x (by simp [hx]))]
      rfl
  unfold Parser.format_ssh_config
  rw [hmapM d h]
  show Except.ok (String.mk
    (rstripL (joinL ['\n'] (d.map specEntryLines).flatten) ++ ['\n'])) = _
  have hflat : (d.map specEntryLines).flatten = specLines d := rfl
  rw [hflat]
  obtain ⟨M, lst, hdec, hlne, hlns⟩ := specLines_decomp d h hne
  rw [hdec]
  rw [joinL_append_single (M ++ [lst]) [] (by simp)]
  simp only [List.append_nil]
  rw [rstripL_append_nl, rstripL_eq_self (lastNotSpace_joinL_last hlne hlns)]

/-- Parsing the newline-join of the spec's line sequence rebuilds the
document. -/
theorem parse_format_wf {d : Doc} (h : wfDoc d = true) (hne : d ≠ []) :
    Parser.parse_ssh_config (String.mk (joinL ['\n'] (specLines d))) =
      Except.ok d := by
  obtain ⟨M, lst, hdec, hlne, hlns⟩ := specLines_decomp d h hne
  unfold Parser.parse_ssh_config
  have hdata : (String.mk (joinL ['\n'] (specLines d))).data =
      joinL ['\n'] (specLines d) := rfl
  rw [hdata, hdec]
  rw [pySplitlines_joinL_blank (fun l hl => specLines_noNl h l (by
      rw [hdec]; exact List.mem_append_left _ hl)) (by simp)]
  obtain ⟨st2, hf, hclose⟩ := fold_doc d h ([], none)
  rw [hdec] at hf
  rw [List.foldlM_append] at hf
  rcases hr : List.foldlM Parser.parseStep ([], none) (M ++ [lst]) with err | st3
  · rw [hr] at hf
    have hred : ((Except.error err : Except String (Doc × Option Entry)) >>=
        (fun b => List.foldlM Parser.parseStep b [[]])) = Except.error err := rfl
    rw [hred] at hf
    cases hf
  · rw [hr] at hf
    have hred : ((Except.ok st3 : Except String (Doc × Option Entry)) >>=
        (fun b => List.foldlM Parser.parseStep b [[]])) =
        List.foldlM Parser.parseStep st3 [[]] := rfl
    rw [hred] at hf
    rw [foldE_cons _ (parseStep_blank _ (show stripL [] = [] from rfl)),
      foldE_nil] at hf
    have hst : st3 = st2 := by injection hf
    show Except.ok (Parser.closeState st3) = Except.ok d
    rw [hst, hclose]
    rfl


/-! ### `core.py`: capitalisation and step lemmas -/

/-- The capitalised forms under which `ssh_to_dict` stores its multi-value
keys. -/
def capMulti : List String := ["Identityfile", "Localforward", "Remoteforward"]

theorem lowered_of_lowerL {t : List Char} : ∀ c ∈ lowerL t, lowerChar c = c := by
  intro c hc
  obtain ⟨x, hx, hxc⟩ := List.mem_map.mp hc
  rw [← hxc]
  exact lowerChar_idem x

/-- Inversion of `str.capitalize` on an already lowered string: the first
character must have been the lower-case form of the upper-case head. -/
theorem capitalize_lowered {lw : List Char} (hlw : ∀ c ∈ lw, lowerChar c = c)
    (u : Char) (tail : List Char) (hu1 : 65 ≤ u.toNat) (hu2 : u.toNat ≤ 90)
    (h : pyCapitalize lw = u :: tail) :
    lw = Char.ofNat (u.toNat + 32) :: tail := by
  rcases lw with _ | ⟨c, rest⟩
  · simp [pyCapitalize] at h
  · simp only [pyCapitalize, List.cons.injEq] at h
    obtain ⟨hc, hrest⟩ := h
    have hcl : lowerChar c = c := hlw c (by simp)
    have hcnotupper : ¬ (65 ≤ c.toNat ∧ c.toNat ≤ 90) := by
      intro hrange
      have h2 := lowerChar_toNat c
      rw [if_pos hrange, hcl] at h2
      omega
    have hcval : c.toNat = u.toNat + 32 := by
      have h2 := upperChar_toNat c
      rw [hc] at h2
      split_ifs at h2 with hr
      · omega
      · exact absurd (by omega : 65 ≤ c.toNat ∧ c.toNat ≤ 90) hcnotupper
    have hrestl : rest = tail := by
      have hid : List.map lowerChar rest = rest := by
        have : ∀ x ∈ rest, lowerChar x = x := fun x hx => hlw x (by simp [hx])
        have hcg : ∀ x ∈ rest, lowerChar x = id x := fun x hx => this x hx
        rw [List.map_congr_left hcg, List.map_id]
      rw [← hid, hrest]
    have hchar : c = Char.ofNat (u.toNat + 32) :=
      charToNat_inj (by rw [hcval, charOfNat_toNat (by omega)])
    rw [hchar, hrestl]

theorem string_mk_inj {a b : List Char} (h : String.mk a = String.mk b) : a = b :=
  congrArg String.data h

/-- A lowered key outside the multi-value set capitalises outside the
stored multi-value forms. -/
theorem cap_not_capMulti {lw : List Char} (hlw : ∀ c ∈ lw, lowerChar c = c)
    (hkey : Core.multiValueKeys.contains (String.mk lw) = false) :
    String.mk (pyCapitalize lw) ∉ capMulti := by
  intro hmem
  have hcases : String.mk (pyCapitalize lw) = "Identityfile" ∨
      String.mk (pyCapitalize lw) = "Localforward" ∨
      String.mk (pyCapitalize lw) = "Remoteforward" := by
    simpa [capMulti] using hmem
  have hlow : lw = "identityfile".data ∨ lw = "localforward".data ∨
      lw = "remoteforward".data := by
    rcases hcases with h | h | h
    · left
      have := capitalize_lowered hlw
        'I' "dentityfile".data (by decide) (by decide)
        (string_mk_inj h)
      rw [this]
      decide
    · right; left
      have := capitalize_lowered hlw
        'L' "ocalforward".data (by decide) (by decide)
        (string_mk_inj h)
      rw [this]
      decide
    · right; right
      have := capitalize_lowered hlw
        'R' "emoteforward".data (by decide) (by decide)
        (string_mk_inj h)
      rw [this]
      decide
  rcases hlow with h | h | h <;>
    · rw [show String.mk lw = _ from congrArg String.mk h] at hkey
      exact absurd hkey (by decide)

/-- A lowered key different from `host` capitalises to something other than
`Host`. -/
theorem cap_ne_Host {lw : List Char} (hlw : ∀ c ∈ lw, lowerChar c = c)
    (hkey : lw ≠ "host".data) :
    String.mk (pyCapitalize lw) ≠ "Host" := by
  intro h
  apply hkey
  have := capitalize_lowered hlw
    'H' "ost".data (by decide) (by decide) (string_mk_inj h)
  rw [this]
  decide

/-- Splitting of a stripped `key value` line as `line.split(maxsplit=1)`
does it. -/
theorem coreSplit_line (k v : String) (sp : List Char)
    (hsp : ∀ c ∈ sp, isPySpace c = true) (htok : tokenL k.data = true)
    (hvh : headNotSpace v.data = true) (hvl : lastNotSpace v.data = true)
    (hvne : v.data ≠ []) :
    stripL (sp ++ k.data ++ ' ' :: v.data) = k.data ++ ' ' :: v.data ∧
    (k.data ++ ' ' :: v.data).takeWhile (fun c => !isPySpace c) = k.data ∧
    ((k.data ++ ' ' :: v.data).drop k.data.length).dropWhile isPySpace = v.data := by
  obtain ⟨hkne, hkall⟩ := tokenL_iff.mp htok
  refine ⟨?_, ?_, ?_⟩
  · rw [List.append_assoc, stripL_space_prefix hsp]
    refine stripL_eq_self ?_ ?_
    · rw [headNotSpace_append hkne]
      exact headNotSpace_of_token htok
    · rw [lastNotSpace_append (by simp)]
      unfold lastNotSpace
      rw [List.reverse_cons, headNotSpace_append (by simpa using hvne)]
      exact hvl
  · refine takeWhile_token (fun x hx => ?_) (by decide)
    simp [hkall x hx]
  · rw [List.drop_left]
    rw [List.dropWhile_cons]
    simp only [isPySpace_space, if_true]
    exact dropWhile_eq_self_of_headNotSpace hvh

theorem coreStep_blank (st : Core.CSt) {raw : List Char} (h : stripL raw = []) :
    Core.coreStep st raw = Except.ok st := by
  unfold Core.coreStep
  simp [h]

theorem coreStep_comment (st : Core.CSt) {raw t : List Char}
    (h : stripL raw = '#' :: t) : Core.coreStep st raw = Except.ok st := by
  unfold Core.coreStep
  rw [h]
  simp [startsWithL_single]

/-- A `Host <rest>` line: close the open entry, open a fresh one whose
`Host` is the raw remainder of the line. -/
theorem coreStep_host (st : Core.CSt) (v : String) (hvh : headNotSpace v.data = true)
    (hvl : lastNotSpace v.data = true) (hvne : v.data ≠ []) :
    Core.coreStep st ("Host ".data ++ v.data) =
      Except.ok ⟨st.hosts ++ (match st.cur with | some cu => [cu] | none => []),
        some [("Host", Value.str v)], false⟩ := by
  have hsplit := coreSplit_line "Host" v [] (by simp) (by decide) hvh hvl hvne
  obtain ⟨h1, h2, h3⟩ := hsplit
  rw [List.nil_append] at h1
  have hlen : ("Host".data ++ ' ' :: v.data).isEmpty = false := rfl
  have hcm : startsWithL ['#'] ("Host".data ++ ' ' :: v.data) = false := rfl
  have hrest : (v.data).isEmpty = false := by
    rcases hv : v.data with _ | _
    · exact absurd hv hvne
    · rfl
  have hkey : (String.mk (lowerL "Host".data)) = ("host" : String) := rfl
  rw [show "Host ".data ++ v.data = "Host".data ++ ' ' :: v.data from rfl]
  unfold Core.coreStep
  simp only [h1, hlen, Bool.false_eq_true, if_false, hcm, h2, h3, hrest, hkey,
    if_pos rfl, mkData]
  rfl

/-- A directive line while an entry is open. -/
theorem coreStep_dir_some (hosts : List Entry) (cu : Entry) (al : Bool)
    (k v : String) (sp : List Char) (hsp : ∀ c ∈ sp, isPySpace c = true)
    (htok : tokenL k.data = true)
    (hhash : startsWithL ['#'] (k.data ++ ' ' :: v.data) = false)
    (hvh : headNotSpace v.data = true) (hvl : lastNotSpace v.data = true)
    (hvne : v.data ≠ []) (hkey : String.mk (lowerL k.data) ≠ "host")
    {cu' : Entry}
    (hrec : Core.coreRecord cu (String.mk (lowerL k.data)) v.data = Except.ok cu') :
    Core.coreStep ⟨hosts, some cu, al⟩ (sp ++ k.data ++ ' ' :: v.data) =
      Except.ok (Core.writeCur ⟨hosts, some cu, al⟩ cu') := by
  obtain ⟨h1, h2, h3⟩ := coreSplit_line k v sp hsp htok hvh hvl hvne
  obtain ⟨hkne, hkall⟩ := tokenL_iff.mp htok
  have hlen : (k.data ++ ' ' :: v.data).isEmpty = false := by
    rcases hk : k.data with _ | _
    · exact absurd hk hkne
    · rfl
  have hrest : (v.data).isEmpty = false := by
    rcases hv : v.data with _ | _
    · exact absurd hv hvne
    · rfl
  unfold Core.coreStep
  simp only [h1, hlen, Bool.false_eq_true, if_false, hhash, h2, h3, hrest,
    if_neg hkey, hrec]
  rfl

/-- A directive line before any entry: the wildcard block is created and
aliased as `hosts[0]`. -/
theorem coreStep_dir_first (k v : String) (sp : List Char)
    (hsp : ∀ c ∈ sp, isPySpace c = true) (htok : tokenL k.data = true)
    (hhash : startsWithL ['#'] (k.data ++ ' ' :: v.data) = false)
    (hvh : headNotSpace v.data = true) (hvl : lastNotSpace v.data = true)
    (hvne : v.data ≠ []) (hkey : String.mk (lowerL k.data) ≠ "host")
    {cu' : Entry}
    (hrec : Core.coreRecord [("Host", Value.str "*")] (String.mk (lowerL k.data))
      v.data = Except.ok cu') :
    Core.coreStep ⟨[], none, false⟩ (sp ++ k.data ++ ' ' :: v.data) =
      Except.ok ⟨[cu'], some cu', true⟩ := by
  obtain ⟨h1, h2, h3⟩ := coreSplit_line k v sp hsp htok hvh hvl hvne
  obtain ⟨hkne, hkall⟩ := tokenL_iff.mp htok
  have hlen : (k.data ++ ' ' :: v.data).isEmpty = false := by
    rcases hk : k.data with _ | _
    · exact absurd hk hkne
    · rfl
  have hrest : (v.data).isEmpty = false := by
    rcases hv : v.data with _ | _
    · exact absurd hv hvne
    · rfl
  unfold Core.coreStep
  simp only [h1, hlen, Bool.false_eq_true, if_false, hhash, h2, h3, hrest,
    if_neg hkey, hrec]
  rfl

/-- `coreRecord` for a key outside the multi-value set: plain overwrite
under the capitalised name. -/
theorem coreRecord_nonmulti (cu : Entry) (key : String) (rest : List Char)
    (hkey : Core.multiValueKeys.contains key = false) :
    Core.coreRecord cu key rest =
      Except.ok (dictSet cu (String.mk (pyCapitalize key.data))
        (Value.str (String.mk rest))) := by
  unfold Core.coreRecord
  rw [hkey]
  rfl

/-- `coreRecord` for a multi-value key not yet present: a fresh one-element
list. -/
theorem coreRecord_multi_new (cu : Entry) (key : String) (rest : List Char)
    (hkey : Core.multiValueKeys.contains key = true)
    (hget : dictGet cu (String.mk (pyCapitalize key.data)) = none) :
    Core.coreRecord cu key rest =
      Except.ok (dictSet cu (String.mk (pyCapitalize key.data))
        (Value.seq [String.mk rest])) := by
  unfold Core.coreRecord
  simp only [hkey, hget]
  rfl

/-- `coreRecord` for a multi-value key already holding a list: append. -/
theorem coreRecord_multi_seq (cu : Entry) (key : String) (rest : List Char)
    {vs : List String} (hkey : Core.multiValueKeys.contains key = true)
    (hget : dictGet cu (String.mk (pyCapitalize key.data)) = some (Value.seq vs)) :
    Core.coreRecord cu key rest =
      Except.ok (dictSet cu (String.mk (pyCapitalize key.data))
        (Value.seq (vs ++ [String.mk rest]))) := by
  unfold Core.coreRecord
  simp only [hkey, hget]
  rfl


/-! ### totality of the parsers (claim C10) -/

/-- The structure forced by a `host ` prefix of the lowered line. -/
theorem hostPrefix_structure {line : List Char}
    (h : startsWithL "host ".data (lowerL line) = true) :
    ∃ l1 l2, line = l1 ++ l2 ∧ l1.map lowerChar = "host ".data := by
  have hpre : "host ".data <+: lowerL line := List.isPrefixOf_iff_prefix.mp h
  obtain ⟨t, ht⟩ := hpre
  have hmap : line.map lowerChar = "host ".data ++ t := ht.symm
  obtain ⟨l1, l2, hl, h1, _⟩ := List.map_eq_append_iff.mp hmap
  exact ⟨l1, l2, hl, h1⟩

/-- The fifth character of a `host `-prefixed line is a real space. -/
theorem hostPrefix_ends_space {l1 : List Char}
    (h : l1.map lowerChar = "host ".data) :
    ∃ a, l1 = a ++ [' '] ∧ l1.length = 5 := by
  have hne : l1 ≠ [] := by
    intro hc
    rw [hc] at h
    exact absurd h (by decide)
  obtain ⟨a, c, hac⟩ := (List.eq_nil_or_concat l1).resolve_left hne
  rw [List.concat_eq_append] at hac
  have hlast : (l1.map lowerChar).getLast? = some (lowerChar c) := by
    rw [hac, List.map_append]
    exact List.getLast?_concat _
  rw [h] at hlast
  have hsp : lowerChar c = ' ' := by
    have : ("host ".data).getLast? = some ' ' := by decide
    rw [this] at hlast
    exact (Option.some.inj hlast).symm
  have hc : c = ' ' := lowerChar_space hsp
  refine ⟨a, by rw [hac, hc], ?_⟩
  have := congrArg List.length h
  simpa using this

/-- In the `host ` branch the token list is never empty, so `host_names[0]`
cannot fail. -/
theorem host_branch_tokens {raw : List Char}
    (h : startsWithL "host ".data (lowerL (stripL raw)) = true) :
    splitWs (stripL ((stripL raw).drop 5)) ≠ [] := by
  obtain ⟨l1, l2, hline, hmap⟩ := hostPrefix_structure h
  obtain ⟨a, hl1, hlen⟩ := hostPrefix_ends_space hmap
  have hlast : lastNotSpace (stripL raw) = true := lastNotSpace_stripL raw
  have hl2ne : l2 ≠ [] := by
    intro hc
    rw [hline, hc, List.append_nil, hl1] at hlast
    unfold lastNotSpace at hlast
    rw [List.reverse_append] at hlast
    simp [headNotSpace, isPySpace] at hlast
  have hdrop : (stripL raw).drop 5 = l2 := by
    rw [hline, show (5 : Nat) = l1.length from hlen.symm]
    exact List.drop_left _ _
  have hlast2 : lastNotSpace l2 = true := by
    rw [hline, lastNotSpace_append hl2ne] at hlast
    exact hlast
  obtain ⟨c2, t2, hrev⟩ : ∃ c2 t2, l2.reverse = c2 :: t2 := by
    rcases hr : l2.reverse with _ | ⟨x, xs⟩
    · exact absurd (by simpa using hr) hl2ne
    · exact ⟨x, xs, rfl⟩
  have hc2 : isPySpace c2 = false := by
    unfold lastNotSpace headNotSpace at hlast2
    rw [hrev] at hlast2
    simpa using hlast2
  have hc2mem : c2 ∈ l2 := List.mem_reverse.mp (by rw [hrev]; simp)
  rw [hdrop]
  apply splitWs_ne_nil
  intro hall
  have := all_space_of_stripL hall c2 hc2mem
  rw [hc2] at this
  cases this

/-- `parse_ssh_config` never fails: every step yields a state. -/
theorem parseStep_total (st : Doc × Option Entry) (raw : List Char) :
    ∃ st2, Parser.parseStep st raw = Except.ok st2 := by
  unfold Parser.parseStep
  dsimp only
  split
  · exact ⟨st, rfl⟩
  · split
    · exact ⟨st, rfl⟩
    · split
      case isTrue hhost =>
        rcases hsw : splitWs (stripL ((stripL raw).drop 5)) with _ | ⟨n, ns⟩
        · exact absurd hsw (host_branch_tokens hhost)
        · exact ⟨_, rfl⟩
      case isFalse =>
        split
        · exact ⟨st, rfl⟩
        · split
          · exact ⟨_, rfl⟩
          · exact ⟨st, rfl⟩

theorem foldE_total {σ α : Type} {f : σ → α → Except String σ}
    (htot : ∀ b a, ∃ b2, f b a = Except.ok b2) :
    ∀ (l : List α) (b : σ), ∃ b2, List.foldlM f b l = Except.ok b2 := by
  intro l
  induction l with
  | nil => intro b; exact ⟨b, rfl⟩
  | cons a t ih =>
    intro b
    obtain ⟨b2, hb2⟩ := htot b a
    obtain ⟨b3, hb3⟩ := ih b2
    exact ⟨b3, by rw [foldE_cons _ hb2, hb3]⟩

theorem parse_total (s : String) : ∃ d, Parser.parse_ssh_config s = Except.ok d := by
  unfold Parser.parse_ssh_config
  obtain ⟨st2, hst2⟩ := foldE_total (parseStep_total) (pySplitlines s.data) ([], none)
  rw [hst2]
  exact ⟨_, rfl⟩

/-- A line with no space at all is skipped by the parser (it can neither be
a `Host ` line nor split into key and value). -/
theorem parseStep_nospace (st : Doc × Option Entry) {raw : List Char}
    (h : (stripL raw).contains ' ' = false) :
    Parser.parseStep st raw = Except.ok st := by
  unfold Parser.parseStep
  dsimp only
  split
  · rfl
  · split
    · rfl
    · split
      case isTrue hhost =>
        exfalso
        obtain ⟨l1, l2, hline, hmap⟩ := hostPrefix_structure hhost
        obtain ⟨a, hl1, _⟩ := hostPrefix_ends_space hmap
        have hmem : ' ' ∈ stripL raw := by
          rw [hline, hl1]
          simp
        have h2 : (stripL raw).contains ' ' = true := List.elem_eq_true_of_mem hmem
        rw [h2] at h
        cases h
      case isFalse =>
        split
        · rfl
        · split
          case isTrue hc =>
            rw [hc] at h
            cases h
          case isFalse => rfl

/-! ### totality of `ssh_to_dict` -/

/-- The invariant making `coreRecord` total: multi-value keys only ever hold
lists. -/
def invE (e : Entry) : Prop := ∀ p ∈ e, p.1 ∈ capMulti → ∃ xs, p.2 = Value.seq xs

def invSt (st : Core.CSt) : Prop :=
  (∀ e ∈ st.hosts, invE e) ∧ (∀ e, st.cur = some e → invE e)

theorem invE_host (v : Value) : invE [("Host", v)] := by
  intro p hp hmem
  simp only [List.mem_singleton] at hp
  subst hp
  exact absurd (show ("Host" : String) ∈ capMulti from hmem) (by decide)

theorem invE_dictSet_seq {e : Entry} (h : invE e) (k : String) (xs : List String) :
    invE (dictSet e k (Value.seq xs)) := by
  intro p hp hmem
  unfold dictSet at hp
  split at hp
  · obtain ⟨q, hq, hqp⟩ := List.mem_map.mp hp
    by_cases hqk : q.1 = k
    · rw [if_pos hqk] at hqp
      subst hqp
      exact ⟨xs, rfl⟩
    · rw [if_neg hqk] at hqp
      subst hqp
      exact h q hq hmem
  · rcases List.mem_append.mp hp with h1 | h1
    · exact h p h1 hmem
    · simp only [List.mem_singleton] at h1
      subst h1
      exact ⟨xs, rfl⟩

theorem invE_dictSet_str {e : Entry} (h : invE e) {k : String} (hk : k ∉ capMulti)
    (v : String) : invE (dictSet e k (Value.str v)) := by
  intro p hp hmem
  unfold dictSet at hp
  split at hp
  · obtain ⟨q, hq, hqp⟩ := List.mem_map.mp hp
    by_cases hqk : q.1 = k
    · rw [if_pos hqk] at hqp
      subst hqp
      exact absurd (show k ∈ capMulti from hmem) hk
    · rw [if_neg hqk] at hqp
      subst hqp
      exact h q hq hmem
  · rcases List.mem_append.mp hp with h1 | h1
    · exact h p h1 hmem
    · simp only [List.mem_singleton] at h1
      subst h1
      exact absurd (show k ∈ capMulti from hmem) hk

theorem dictGet_some_mem {e : Entry} {k : String} {v : Value}
    (h : dictGet e k = some v) : ∃ p ∈ e, p.1 = k ∧ p.2 = v := by
  unfold dictGet at h
  rcases hf : e.find? (fun p => p.1 = k) with _ | p
  · rw [hf] at h; cases h
  · rw [hf] at h
    have hp := List.find?_some hf
    have hpe := List.mem_of_find?_eq_some hf
    simp only [decide_eq_true_eq] at hp
    exact ⟨p, hpe, hp, Option.some.inj h⟩

/-- `coreRecord` is total on entries satisfying the invariant, and the
invariant is preserved.  The recorded key is always the lowered split
token. -/
theorem coreRecord_total {cu : Entry} (hinv : invE cu) (t : List Char)
    (rest : List Char) :
    ∃ cu2, Core.coreRecord cu (String.mk (lowerL t)) rest = Except.ok cu2 ∧
      invE cu2 := by
  rcases hm : Core.multiValueKeys.contains (String.mk (lowerL t)) with _ | _
  · refine ⟨_, coreRecord_nonmulti cu _ rest hm, ?_⟩
    exact invE_dictSet_str hinv (by
      rw [show (String.mk (lowerL t)).data = lowerL t from rfl]
      exact cap_not_capMulti lowered_of_lowerL hm) _
  · have hmem : String.mk (pyCapitalize (String.mk (lowerL t)).data) ∈ capMulti := by
      have : String.mk (lowerL t) = "identityfile" ∨
          String.mk (lowerL t) = "localforward" ∨
          String.mk (lowerL t) = "remoteforward" := by
        have := hm
        rw [List.contains_eq_any_beq] at this
        simpa [Core.multiValueKeys, beq_iff_eq] using this
      rcases this with h | h | h <;> rw [h] <;> decide
    rcases hget : dictGet cu (String.mk (pyCapitalize (String.mk (lowerL t)).data))
      with _ | v
    · exact ⟨_, coreRecord_multi_new cu _ rest hm hget,
        invE_dictSet_seq hinv _ _⟩
    · rcases v with s | xs
      · exfalso
        obtain ⟨p, hpe, hp1, hp2⟩ := dictGet_some_mem hget
        obtain ⟨ys, hys⟩ := hinv p hpe (hp1 ▸ hmem)
        rw [hp2] at hys
        cases hys
      · exact ⟨_, coreRecord_multi_seq cu _ rest hm hget,
        invE_dictSet_seq hinv _ _⟩

theorem invSt_writeCur {st : Core.CSt} (hhosts : ∀ e ∈ st.hosts, invE e)
    {cu2 : Entry} (hinv2 : invE cu2) : invSt (Core.writeCur st cu2) := by
  unfold Core.writeCur
  split
  · refine ⟨?_, ?_⟩
    · intro e he
      rcases List.mem_or_eq_of_mem_set he with h1 | h1
      · exact hhosts e h1
      · subst h1
        exact hinv2
    · intro e he
      simp only [Option.some.injEq] at he
      subst he
      exact hinv2
  · refine ⟨hhosts, ?_⟩
    intro e he
    simp only [Option.some.injEq] at he
    subst he
    exact hinv2

/-- One `ssh_to_dict` step is total on invariant states and preserves the
invariant. -/
theorem coreStep_total {st : Core.CSt} (hinv : invSt st) (raw : List Char) :
    ∃ st2, Core.coreStep st raw = Except.ok st2 ∧ invSt st2 := by
  obtain ⟨hhosts, hcur⟩ := hinv
  unfold Core.coreStep
  dsimp only
  split
  · exact ⟨st, rfl, hhosts, hcur⟩
  · split
    · exact ⟨st, rfl, hhosts, hcur⟩
    · split
      · exact ⟨st, rfl, hhosts, hcur⟩
      · split
        · -- a Host line
          refine ⟨_, rfl, ?_, ?_⟩
          · intro e he
            rcases List.mem_append.mp he with h1 | h1
            · exact hhosts e h1
            · rcases hc : st.cur with _ | cu
              · rw [hc] at h1; cases h1
              · rw [hc] at h1
                simp only [List.mem_singleton] at h1
                subst h1
                exact hcur e hc
          · intro e he
            simp only [Option.some.injEq] at he
            subst he
            exact invE_host _
        · split
          case h_1 cu hcu =>
            obtain ⟨cu2, hrec, hinv2⟩ := coreRecord_total (hcur cu hcu) _ _
            exact ⟨_, by rw [hrec]; rfl, invSt_writeCur hhosts hinv2⟩
          case h_2 hcu =>
            split
            case h_1 hhe =>
              obtain ⟨cu2, hrec, hinv2⟩ := coreRecord_total (invE_host _) _ _
              refine ⟨_, by rw [hrec]; rfl, ?_, ?_⟩
              · intro e he
                simp only [List.mem_singleton] at he
                subst he
                exact hinv2
              · intro e he
                simp only [Option.some.injEq] at he
                subst he
                exact hinv2
            case h_2 h0 tail hhe =>
              split
              · obtain ⟨cu2, hrec, hinv2⟩ :=
                  coreRecord_total (hhosts h0 (by rw [hhe]; simp)) _ _
                refine ⟨_, by rw [hrec]; rfl, ?_, ?_⟩
                · intro e he
                  rcases List.mem_or_eq_of_mem_set he with h1 | h1
                  · exact hhosts e h1
                  · subst h1
                    exact hinv2
                · intro e he
                  simp only [Option.some.injEq] at he
                  subst he
                  exact hinv2
              · obtain ⟨cu2, hrec, hinv2⟩ := coreRecord_total (invE_host _) _ _
                refine ⟨⟨st.hosts, some cu2, false⟩, by rw [hrec]; rfl, hhosts, ?_⟩
                intro e he
                simp only [Option.some.injEq] at he
                subst he
                exact hinv2

theorem ssh_to_dict_total (s : String) :
    ∃ cd, Core.ssh_to_dict s = Except.ok cd := by
  unfold Core.ssh_to_dict
  have hfold : ∀ (lines : List (List Char)) (st : Core.CSt), invSt st →
      ∃ st2, List.foldlM Core.coreStep st lines = Except.ok st2 ∧ invSt st2 := by
    intro lines
    induction lines with
    | nil => intro st h; exact ⟨st, rfl, h⟩
    | cons l t ih =>
      intro st h
      obtain ⟨st2, hst2, h2⟩ := coreStep_total h l
      obtain ⟨st3, hst3, h3⟩ := ih st2 h2
      exact ⟨st3, by rw [foldE_cons _ hst2, hst3], h3⟩
  have hinit : invSt ⟨[], none, false⟩ := by
    constructor
    · intro e he
      cases he
    · intro e he
      cases he
  obtain ⟨st2, hst2, _⟩ := hfold (pySplitNl s.data) ⟨[], none, false⟩ hinit
  rw [hst2]
  exact ⟨_, rfl⟩

/-- A line with no whitespace at all is skipped by `ssh_to_dict`
(`len(parts) < 2`). -/
theorem coreStep_noWs (st : Core.CSt) {raw : List Char}
    (h : ∀ c ∈ stripL raw, isPySpace c = false) :
    Core.coreStep st raw = Except.ok st := by
  unfold Core.coreStep
  dsimp only
  split
  · rfl
  · split
    · rfl
    · split
      case isTrue => rfl
      case isFalse hrest =>
        exfalso
        apply hrest
        have htake : (stripL raw).takeWhile (fun c => !isPySpace c) = stripL raw :=
          takeWhile_all_self (fun c hc => by simp [h c hc])
        rw [htake, List.drop_length]
        rfl


/-! ### helpers for the concrete claim statements -/

theorem strData_append (a b : String) : (a ++ b).data = a.data ++ b.data := rfl

theorem wfKey_lower_ne_host {k : List Char} (h : wfKeyL k = true) :
    lowerL k ≠ "host".data := by
  obtain ⟨_, _, hpre1, _⟩ := wfKeyL_parts h
  intro hc
  rw [hc] at hpre1
  have : List.isPrefixOf "host ".data ("host".data ++ [' ']) = true := by decide
  rw [this] at hpre1
  cases hpre1

theorem wfKey_ne_HostStr {k : String} (h : wfKeyL k.data = true) : k ≠ "Host" := by
  intro hc
  apply wfKey_lower_ne_host h
  rw [hc]
  decide

/-- Without a trailing newline, `splitlines` is plain newline splitting. -/
theorem pySplitlines_noTrailNl {cs : List Char} (hne : cs ≠ [])
    (h : lastNotSpace cs = true) : pySplitlines cs = pySplitNl cs := by
  have hlast : cs.getLast? ≠ some '\n' := by
    intro hc
    have h2 : cs.reverse.head? = some '\n' := by
      rw [List.head?_reverse]
      exact hc
    unfold lastNotSpace headNotSpace at h
    rcases hr : cs.reverse with _ | ⟨x, xs⟩
    · rw [hr] at h2; cases h2
    · rw [hr] at h2 h
      have : x = '\n' := Option.some.inj h2
      subst this
      simp [isPySpace] at h
  unfold pySplitlines
  rcases hcs : cs with _ | ⟨c, t⟩
  · exact absurd hcs hne
  · rw [← hcs, if_neg (by simpa using hlast)]
    rw [hcs]

/-- Newline splitting of two joined lines. -/
theorem pySplitNl_two {l1 l2 : List Char} (h1 : ∀ c ∈ l1, c ≠ '\n')
    (h2 : ∀ c ∈ l2, c ≠ '\n') :
    pySplitNl (l1 ++ '\n' :: l2) = [l1, l2] := by
  unfold pySplitNl
  rw [splitNlAux_line l1 [] l2 h1]
  rw [splitNlAux_noNl l2 [] h2]
  simp

/-- Newline splitting of three joined lines. -/
theorem pySplitNl_three {l1 l2 l3 : List Char} (h1 : ∀ c ∈ l1, c ≠ '\n')
    (h2 : ∀ c ∈ l2, c ≠ '\n') (h3 : ∀ c ∈ l3, c ≠ '\n') :
    pySplitNl (l1 ++ '\n' :: (l2 ++ '\n' :: l3)) = [l1, l2, l3] := by
  unfold pySplitNl
  rw [splitNlAux_line l1 [] _ h1, splitNlAux_line l2 [] _ h2,
    splitNlAux_noNl l3 [] h3]
  simp

theorem token_char_ne_nl {cs : List Char} (h : tokenL cs = true) :
    ∀ c ∈ cs, c ≠ '\n' := by
  intro c hc
  exact ne_nl_of_not_space ((tokenL_iff.mp h).2 c hc)

/-- A key-value line of well-formed pieces contains no newline. -/
theorem kv_line_noNl {k v : String} (hk : tokenL k.data = true)
    (hv : plainVal v.data = true) :
    ∀ c ∈ k.data ++ ' ' :: v.data, c ≠ '\n' := by
  intro c hc
  rcases List.mem_append.mp hc with h1 | h1
  · exact token_char_ne_nl hk c h1
  · rcases List.mem_cons.mp h1 with h2 | h2
    · subst h2; decide
    · exact val_char_ne_nl hv c h2

/-- An indented key-value line contains no newline. -/
theorem ikv_line_noNl {k v : String} (hk : tokenL k.data = true)
    (hv : plainVal v.data = true) :
    ∀ c ∈ "    ".data ++ k.data ++ ' ' :: v.data, c ≠ '\n' := by
  intro c hc
  rcases List.mem_append.mp hc with h1 | h1
  · rcases List.mem_append.mp h1 with h2 | h2
    · have : ∀ x ∈ "    ".data, x = ' ' := by decide
      rw [this c h2]; decide
    · exact token_char_ne_nl hk c h2
  · rcases List.mem_cons.mp h1 with h2 | h2
    · subst h2; decide
    · exact val_char_ne_nl hv c h2

/-- A `Host <token>` line contains no newline. -/
theorem hostline_noNl {h : String} (hh : tokenL h.data = true) :
    ∀ c ∈ "Host ".data ++ h.data, c ≠ '\n' := by
  intro c hc
  rcases List.mem_append.mp hc with h1 | h1
  · intro he; subst he; revert h1; decide
  · exact token_char_ne_nl hh c h1

/-- A directive line seen with no entry open is dropped by the parser. -/
theorem parseStep_dir_nocur (hosts : Doc) (k v : String) (sp : List Char)
    (hsp : ∀ c ∈ sp, isPySpace c = true) (hk : wfKeyL k.data = true)
    (hvh : headNotSpace v.data = true) (hvl : lastNotSpace v.data = true)
    (hvne : v.data ≠ []) :
    Parser.parseStep (hosts, none) (sp ++ k.data ++ ' ' :: v.data) =
      Except.ok (hosts, none) := by
  obtain ⟨htok, ⟨c0, t0, hk0, hc0⟩, hpre1, hpre2⟩ := wfKeyL_parts hk
  obtain ⟨hkne, hkall⟩ := tokenL_iff.mp htok
  have hline : stripL (sp ++ k.data ++ ' ' :: v.data) = k.data ++ ' ' :: v.data := by
    rw [List.append_assoc, stripL_space_prefix hsp]
    refine stripL_eq_self ?_ ?_
    · rw [headNotSpace_append hkne]
      exact headNotSpace_of_token htok
    · rw [lastNotSpace_append (by simp)]
      unfold lastNotSpace
      rw [List.reverse_cons]
      rw [headNotSpace_append (by simpa using hvne)]
      exact hvl
  have hne : (k.data ++ ' ' :: v.data).isEmpty = false := by
    rw [hk0]; rfl
  have hcomment : startsWithL ['#'] (k.data ++ ' ' :: v.data) = false := by
    rw [hk0]
    rw [show (c0 :: t0) ++ ' ' :: v.data = c0 :: (t0 ++ ' ' :: v.data) from rfl]
    rw [startsWithL_single]
    simp only [beq_eq_false_iff_ne]
    exact fun hc => hc0 hc.symm
  have hhost : startsWithL "host ".data (lowerL (k.data ++ ' ' :: v.data)) = false := by
    unfold startsWithL
    have hsplit : lowerL (k.data ++ ' ' :: v.data) =
        (lowerL k.data ++ [' ']) ++ lowerL v.data := by
      rw [lowerL_append, List.append_assoc]
      rfl
    rw [hsplit]
    exact not_isPrefixOf_append hpre1 hpre2 _
  unfold Parser.parseStep
  simp only [hline, hne, Bool.false_eq_true, if_false, hcomment, hhost]


theorem append_cons_ne_nil {a : List Char} {c : Char} {b : List Char} :
    a ++ c :: b ≠ [] := by
  intro hc
  simpa using congrArg List.length hc

/-- A line ending in a right-stripped value is right-stripped. -/
theorem lastNotSpace_kv (pre : List Char) {v : String}
    (hvl : lastNotSpace v.data = true) (hvne : v.data ≠ []) :
    lastNotSpace (pre ++ ' ' :: v.data) = true := by
  rw [show (' ' :: v.data : List Char) = [' '] ++ v.data from rfl, ← List.append_assoc]
  rw [lastNotSpace_append hvne]
  exact hvl

theorem lastNotSpace_line2 {l1 l2 : List Char} (hne : l2 ≠ [])
    (h2 : lastNotSpace l2 = true) :
    lastNotSpace (l1 ++ '\n' :: l2) = true := by
  rw [show ('\n' :: l2 : List Char) = ['\n'] ++ l2 from rfl, ← List.append_assoc]
  rw [lastNotSpace_append hne]
  exact h2

theorem lastNotSpace_line3 {l1 l2 l3 : List Char} (hne : l3 ≠ [])
    (h3 : lastNotSpace l3 = true) :
    lastNotSpace (l1 ++ '\n' :: (l2 ++ '\n' :: l3)) = true := by
  rw [lastNotSpace_append (List.cons_ne_nil _ _)]
  rw [show ('\n' :: (l2 ++ '\n' :: l3) : List Char) = ('\n' :: l2) ++ '\n' :: l3 from rfl]
  exact lastNotSpace_line2 hne h3

theorem pySplitNl_one {l : List Char} (h : ∀ c ∈ l, c ≠ '\n') :
    pySplitNl l = [l] := by
  unfold pySplitNl
  rw [splitNlAux_noNl l [] h]
  simp

/-- A well-formed key never makes the line a comment. -/
theorem wfKey_line_nohash {k v : String} (hk : wfKeyL k.data = true) :
    startsWithL ['#'] (k.data ++ ' ' :: v.data) = false := by
  obtain ⟨_, ⟨c0, t0, hk0, hc0⟩, _, _⟩ := wfKeyL_parts hk
  rw [hk0, show (c0 :: t0) ++ ' ' :: v.data = c0 :: (t0 ++ ' ' :: v.data) from rfl,
    startsWithL_single]
  simp only [beq_eq_false_iff_ne]
  exact fun hc => hc0 hc.symm

theorem wfKey_mk_lower_ne_host {k : String} (hk : wfKeyL k.data = true) :
    String.mk (lowerL k.data) ≠ "host" := by
  intro hc
  exact wfKey_lower_ne_host hk (string_mk_inj hc)

theorem not_mem_fst_nil (k : String) : k ∉ (([] : Entry).map Prod.fst) := by
  simp

theorem not_mem_fst_cons {k k1 : String} {v : Value} {e : Entry} (h1 : k ≠ k1)
    (h2 : k ∉ e.map Prod.fst) : k ∉ (((k1, v) :: e : Entry).map Prod.fst) := by
  intro hc
  simp only [List.map_cons] at hc
  rcases List.mem_cons.mp hc with h | h
  · exact h1 h
  · exact h2 h


theorem plainVal_of_token {cs : List Char} (h : tokenL cs = true) : plainVal cs = true := by
  obtain ⟨hne, hall⟩ := tokenL_iff.mp h
  have h1 : cs.isEmpty = false := by
    rcases cs with _ | ⟨c, t⟩
    · exact absurd rfl hne
    · rfl
  unfold plainVal
  rw [h1, headNotSpace_of_token h, lastNotSpace_of_token h]
  simp only [Bool.not_false, Bool.and_true, Bool.true_and, List.all_eq_true,
    Bool.or_eq_true]
  intro c hc
  right
  simp [hall c hc]

/-! ## The claims -/

/-- C1, counterexample: neither cited pair is the identity on every document
meeting the section-3 invariants.  The `core.py` pair (`dict_to_ssh` then
`ssh_to_dict`) renormalises the stored key `HostName` to `Hostname`; and on
the `parser.py` pair a one-element `IdentityFile` sequence — valid under
section 3, which lets a multi-valued name hold a sequence of exactly one
value — comes back as a scalar, and a value with trailing whitespace comes
back stripped. -/
theorem C1_counterexample :
    wfDoc [[("Host", Value.str "h"), ("HostName", Value.str "x")]] = true ∧
    Core.ssh_to_dict
        (Core.dict_to_ssh ⟨[[("Host", Value.str "h"), ("HostName", Value.str "x")]]⟩) =
      Except.ok ⟨[[("Host", Value.str "h"), ("Hostname", Value.str "x")]]⟩ ∧
    (⟨[[("Host", Value.str "h"), ("Hostname", Value.str "x")]]⟩ : CoreDoc) ≠
      ⟨[[("Host", Value.str "h"), ("HostName", Value.str "x")]]⟩ ∧
    (Parser.format_ssh_config [[("Host", Value.str "h"),
        ("IdentityFile", Value.seq ["f"])]]).bind Parser.parse_ssh_config =
      Except.ok [[("Host", Value.str "h"), ("IdentityFile", Value.str "f")]] ∧
    Value.str "f" ≠ Value.seq ["f"] ∧
    (Parser.format_ssh_config [[("Host", Value.str "h"),
        ("User", Value.str "a ")]]).bind Parser.parse_ssh_config =
      Except.ok [[("Host", Value.str "h"), ("User", Value.str "a")]] ∧
    ("a" : String) ≠ "a " :=
  ⟨by decide, rfl, by decide, rfl, by decide, rfl, by decide⟩

/-- C1, amended: the `parser.py` round trip is the identity on the restricted
class `wfDoc` checks — `Host`-first entries with distinct well-formed keys,
values already stripped with plain spaces as their only whitespace, and every
sequence of length at least two.  Outside that class the round trip
normalises instead of preserving: a one-element sequence collapses to a
scalar and an unstripped value comes back stripped (shown here at concrete
documents); and the `core.py` pair renormalises key casing (see the
counterexample). -/
theorem C1_roundtrip_amended {d : Doc} (h : wfDoc d = true) :
    (Parser.format_ssh_config d).bind Parser.parse_ssh_config = Except.ok d ∧
    (Parser.format_ssh_config [[("Host", Value.str "h"),
        ("IdentityFile", Value.seq ["f"])]]).bind Parser.parse_ssh_config =
      Except.ok [[("Host", Value.str "h"), ("IdentityFile", Value.str "f")]] ∧
    (Parser.format_ssh_config [[("Host", Value.str "h"),
        ("User", Value.str "a ")]]).bind Parser.parse_ssh_config =
      Except.ok [[("Host", Value.str "h"), ("User", Value.str "a")]] := by
  refine ⟨?_, rfl, rfl⟩
  by_cases hne : d = []
  · subst hne; rfl
  · rw [format_wf h hne]
    exact parse_format_wf h hne

/-- C1 witness: the amended round trip at a concrete two-entry document of
the restricted class. -/
theorem C1_roundtrip_amended_witness :
    wfDoc [[("Host", Value.str "h"), ("User", Value.str "u")],
           [("Host", Value.seq ["a", "b"]), ("IdentityFile", Value.seq ["f", "g"])]] = true ∧
    (Parser.format_ssh_config [[("Host", Value.str "h"), ("User", Value.str "u")],
           [("Host", Value.seq ["a", "b"]), ("IdentityFile", Value.seq ["f", "g"])]]).bind
        Parser.parse_ssh_config =
      Except.ok [[("Host", Value.str "h"), ("User", Value.str "u")],
           [("Host", Value.seq ["a", "b"]), ("IdentityFile", Value.seq ["f", "g"])]] :=
  ⟨by decide, (C1_roundtrip_amended (by decide)).1⟩

/-- C2, counterexample: on input `User admin` (a directive before any `Host`
line) `parser.py` returns the empty document — no wildcard entry is
synthesised — while `core.py` synthesises the wildcard entry but appends it
twice (`current_host` aliases `hosts[0]`). -/
theorem C2_counterexample :
    Parser.parse_ssh_config "User admin" = Except.ok [] ∧
    Core.ssh_to_dict "User admin" =
      Except.ok ⟨[[("Host", Value.str "*"), ("User", Value.str "admin")],
                  [("Host", Value.str "*"), ("User", Value.str "admin")]]⟩ :=
  ⟨rfl, rfl⟩

/-- C2, amended: for any well-formed directive line before any `Host` line,
`parser.py` drops it (empty document), while `core.py` opens the wildcard
block, stores the directive under the capitalised lowered key, and emits the
wildcard entry twice. -/
theorem C2_wildcard_amended (k v : String) (hk : wfKeyL k.data = true)
    (hv : plainVal v.data = true)
    (hm : Core.multiValueKeys.contains (String.mk (lowerL k.data)) = false) :
    Parser.parse_ssh_config (String.mk (k.data ++ ' ' :: v.data)) = Except.ok [] ∧
    Core.ssh_to_dict (String.mk (k.data ++ ' ' :: v.data)) =
      Except.ok ⟨[[("Host", Value.str "*"),
                   (String.mk (pyCapitalize (lowerL k.data)), Value.str v)],
                  [("Host", Value.str "*"),
                   (String.mk (pyCapitalize (lowerL k.data)), Value.str v)]]⟩ := by
  obtain ⟨hvne, hvh, hvl⟩ := plainVal_parts hv
  obtain ⟨htok, _, _, _⟩ := wfKeyL_parts hk
  have hnoNl := kv_line_noNl htok hv
  constructor
  · unfold Parser.parse_ssh_config
    rw [show (String.mk (k.data ++ ' ' :: v.data)).data = k.data ++ ' ' :: v.data from rfl]
    rw [pySplitlines_noTrailNl append_cons_ne_nil (lastNotSpace_kv k.data hvl hvne)]
    rw [pySplitNl_one hnoNl]
    have hstep : Parser.parseStep ([], none) (k.data ++ ' ' :: v.data) =
        Except.ok ([], none) :=
      parseStep_dir_nocur [] k v [] (by simp) hk hvh hvl hvne
    rw [foldE_cons [] hstep]
    rfl
  · unfold Core.ssh_to_dict
    rw [show (String.mk (k.data ++ ' ' :: v.data)).data = k.data ++ ' ' :: v.data from rfl]
    rw [pySplitNl_one hnoNl]
    have hrec : Core.coreRecord [("Host", Value.str "*")] (String.mk (lowerL k.data))
        v.data = Except.ok [("Host", Value.str "*"),
          (String.mk (pyCapitalize (lowerL k.data)), Value.str v)] := by
      rw [coreRecord_nonmulti _ _ _ hm]
      rw [dictSet_new (not_mem_fst_cons
        (cap_ne_Host lowered_of_lowerL (wfKey_lower_ne_host hk)) (not_mem_fst_nil _))]
      rfl
    have hstep : Core.coreStep ⟨[], none, false⟩ (k.data ++ ' ' :: v.data) =
        Except.ok ⟨[[("Host", Value.str "*"),
            (String.mk (pyCapitalize (lowerL k.data)), Value.str v)]],
          some [("Host", Value.str "*"),
            (String.mk (pyCapitalize (lowerL k.data)), Value.str v)], true⟩ :=
      coreStep_dir_first k v [] (by simp) htok (wfKey_line_nohash hk) hvh hvl hvne
        (wfKey_mk_lower_ne_host hk) hrec
    rw [foldE_cons [] hstep]
    rfl

/-- C2 witness: the amended behaviour at the claim's own example
`User admin`. -/
theorem C2_wildcard_amended_witness :
    wfKeyL "User".data = true ∧
    Parser.parse_ssh_config (String.mk ("User".data ++ ' ' :: "admin".data)) =
      Except.ok [] ∧
    Core.ssh_to_dict (String.mk ("User".data ++ ' ' :: "admin".data)) =
      Except.ok ⟨[[("Host", Value.str "*"),
                   (String.mk (pyCapitalize (lowerL "User".data)), Value.str "admin")],
                  [("Host", Value.str "*"),
                   (String.mk (pyCapitalize (lowerL "User".data)), Value.str "admin")]]⟩ :=
  ⟨by decide, (C2_wildcard_amended "User" "admin" (by decide) (by decide) (by decide)).1,
   (C2_wildcard_amended "User" "admin" (by decide) (by decide) (by decide)).2⟩

/-- C3, counterexample: `core.py` stores the rest of a multi-pattern `Host`
line as the single raw string `"a b c"`, not as the sequence of patterns the
claim requires of the cited parsers. -/
theorem C3_counterexample :
    Core.ssh_to_dict "Host a b c\n    User x\n" =
      Except.ok ⟨[[("Host", Value.str "a b c"), ("User", Value.str "x")]]⟩ ∧
    Value.str "a b c" ≠ Value.seq ["a", "b", "c"] :=
  ⟨rfl, by decide⟩

/-- C3, amended: `parser.py` behaves as claimed — a two-pattern `Host` line
opens one entry whose `Host` is the sequence of the patterns, the claim's
example parses as stated, and a single pattern stays a scalar — while
`core.py` keeps the raw rest of the line as one string. -/
theorem C3_hostsplit_amended (a b : String) (ha : tokenL a.data = true)
    (hb : tokenL b.data = true) :
    Parser.parse_ssh_config (String.mk ("Host ".data ++ (a.data ++ ' ' :: b.data))) =
      Except.ok [[("Host", Value.seq [a, b])]] ∧
    Parser.parse_ssh_config "Host a b c\n    User x\n" =
      Except.ok [[("Host", Value.seq ["a", "b", "c"]), ("User", Value.str "x")]] ∧
    Parser.parse_ssh_config "Host a\n    User x\n" =
      Except.ok [[("Host", Value.str "a"), ("User", Value.str "x")]] ∧
    Core.ssh_to_dict "Host a b c\n    User x\n" =
      Except.ok ⟨[[("Host", Value.str "a b c"), ("User", Value.str "x")]]⟩ := by
  refine ⟨?_, rfl, rfl, rfl⟩
  obtain ⟨hane, haall⟩ := tokenL_iff.mp ha
  obtain ⟨hbne, hball⟩ := tokenL_iff.mp hb
  have hnoNl : ∀ c ∈ "Host ".data ++ (a.data ++ ' ' :: b.data), c ≠ '\n' := by
    intro c hc
    rcases List.mem_append.mp hc with h1 | h1
    · intro he; subst he; revert h1; decide
    · exact kv_line_noNl ha (plainVal_of_token hb) c h1
  have hlastX : lastNotSpace (a.data ++ ' ' :: b.data) = true :=
    lastNotSpace_kv a.data (lastNotSpace_of_token hb) hbne
  have hlastL : lastNotSpace ("Host ".data ++ (a.data ++ ' ' :: b.data)) = true := by
    rw [lastNotSpace_append append_cons_ne_nil]
    exact hlastX
  have hsplit : splitWs (a.data ++ ' ' :: b.data) = [a.data, b.data] :=
    splitWs_join [a.data, b.data]
      (by
        intro t ht
        rcases List.mem_cons.mp ht with h1 | h1
        · subst h1; exact ⟨hane, haall⟩
        · rcases List.mem_singleton.mp h1 with rfl
          exact ⟨hbne, hball⟩)
      (by simp)
  unfold Parser.parse_ssh_config
  rw [show (String.mk ("Host ".data ++ (a.data ++ ' ' :: b.data))).data =
    "Host ".data ++ (a.data ++ ' ' :: b.data) from rfl]
  rw [pySplitlines_noTrailNl (show "Host ".data ++ (a.data ++ ' ' :: b.data) ≠ []
    from List.cons_ne_nil _ _) hlastL]
  rw [pySplitNl_one hnoNl]
  rw [foldE_cons [] (parseStep_hostline [] none (a.data ++ ' ' :: b.data)
    append_cons_ne_nil (by rw [headNotSpace_append hane]; exact headNotSpace_of_token ha)
    hlastX hsplit)]
  rfl

/-- C3 witness: the amended two-pattern behaviour at `Host a b`. -/
theorem C3_hostsplit_amended_witness :
    tokenL "a".data = true ∧
    Parser.parse_ssh_config (String.mk ("Host ".data ++ ("a".data ++ ' ' :: "b".data))) =
      Except.ok [[("Host", Value.seq ["a", "b"])]] :=
  ⟨by decide, (C3_hostsplit_amended "a" "b" (by decide) (by decide)).1⟩


/-- C4, counterexample: `parser.py` has no multi-value set — a single
`IdentityFile` line stays a scalar — and `core.py` overwrites a repeated
non-multi key instead of accumulating it. -/
theorem C4_counterexample :
    Parser.parse_ssh_config "Host h\n    IdentityFile a\n" =
      Except.ok [[("Host", Value.str "h"), ("IdentityFile", Value.str "a")]] ∧
    Value.str "a" ≠ Value.seq ["a"] ∧
    Core.ssh_to_dict "Host h\n    User a\n    User b\n" =
      Except.ok ⟨[[("Host", Value.str "h"), ("User", Value.str "b")]]⟩ :=
  ⟨rfl, by decide, rfl⟩

/-- C4, amended: `parser.py` accumulates a repeated directive name into a
sequence in file order (for any well-formed name, multi-valued or not), while
`core.py` builds a one-element sequence for a single multi-value occurrence
but overwrites repeats of a non-multi-value name. -/
theorem C4_multivalue_amended (h k va vb f p q : String)
    (hh : tokenL h.data = true) (hk : wfKeyL k.data = true)
    (hva : plainVal va.data = true) (hvb : plainVal vb.data = true)
    (hf : plainVal f.data = true) (hp : plainVal p.data = true)
    (hq : plainVal q.data = true) :
    Parser.parse_ssh_config (String.mk (("Host ".data ++ h.data) ++ '\n' ::
        (("    ".data ++ k.data ++ ' ' :: va.data) ++ '\n' ::
          ("    ".data ++ k.data ++ ' ' :: vb.data)))) =
      Except.ok [[("Host", Value.str h), (k, Value.seq [va, vb])]] ∧
    Core.ssh_to_dict (String.mk (("Host ".data ++ h.data) ++ '\n' ::
        ("    ".data ++ "IdentityFile".data ++ ' ' :: f.data))) =
      Except.ok ⟨[[("Host", Value.str h), ("Identityfile", Value.seq [f])]]⟩ ∧
    Core.ssh_to_dict (String.mk (("Host ".data ++ h.data) ++ '\n' ::
        (("    ".data ++ "User".data ++ ' ' :: p.data) ++ '\n' ::
          ("    ".data ++ "User".data ++ ' ' :: q.data)))) =
      Except.ok ⟨[[("Host", Value.str h), ("User", Value.str q)]]⟩ := by
  obtain ⟨hvane, hvah, hval⟩ := plainVal_parts hva
  obtain ⟨hvbne, hvbh, hvbl⟩ := plainVal_parts hvb
  obtain ⟨hfne, hfh, hfl⟩ := plainVal_parts hf
  obtain ⟨hpne, hph, hpl⟩ := plainVal_parts hp
  obtain ⟨hqne, hqh, hql⟩ := plainVal_parts hq
  have htokk : tokenL k.data = true := (wfKeyL_parts hk).1
  refine ⟨?_, ?_, ?_⟩
  · -- parser accumulation of a repeated name
    have hget1 : dictGet [("Host", Value.str h)] k = none := by
      rw [dictGet_cons_ne (Ne.symm (wfKey_ne_HostStr hk))]
      rfl
    have hstep1 : Parser.parseStep ([], none) ("Host ".data ++ h.data) =
        Except.ok ([], some [("Host", Value.str h)]) :=
      parseStep_host [] none (Value.str h) hh
    have hstep2 : Parser.parseStep ([], some [("Host", Value.str h)])
        ("    ".data ++ k.data ++ ' ' :: va.data) =
        Except.ok ([], some [("Host", Value.str h), (k, Value.str va)]) := by
      rw [parseStep_dir_new [] [("Host", Value.str h)] k va "    ".data
        (by decide) hk hvah hval hvane hget1]
      rw [dictSet_new (not_mem_fst_cons (wfKey_ne_HostStr hk) (not_mem_fst_nil _))]
      rfl
    have hget2 : dictGet [("Host", Value.str h), (k, Value.str va)] k =
        some (Value.str va) := by
      rw [dictGet_cons_ne (Ne.symm (wfKey_ne_HostStr hk))]
      exact dictGet_cons_self
    have hstep3 : Parser.parseStep ([], some [("Host", Value.str h), (k, Value.str va)])
        ("    ".data ++ k.data ++ ' ' :: vb.data) =
        Except.ok ([], some [("Host", Value.str h), (k, Value.seq [va, vb])]) := by
      rw [parseStep_dir_str [] [("Host", Value.str h), (k, Value.str va)] k vb
        "    ".data (by decide) hk hvbh hvbl hvbne hget2]
      rw [show [("Host", Value.str h), (k, Value.str va)] =
        [("Host", Value.str h)] ++ [(k, Value.str va)] from rfl]
      rw [dictSet_update_last (not_mem_fst_cons (wfKey_ne_HostStr hk) (not_mem_fst_nil _))]
      rfl
    unfold Parser.parse_ssh_config
    rw [show (String.mk (("Host ".data ++ h.data) ++ '\n' ::
        (("    ".data ++ k.data ++ ' ' :: va.data) ++ '\n' ::
          ("    ".data ++ k.data ++ ' ' :: vb.data)))).data =
      ("Host ".data ++ h.data) ++ '\n' ::
        (("    ".data ++ k.data ++ ' ' :: va.data) ++ '\n' ::
          ("    ".data ++ k.data ++ ' ' :: vb.data)) from rfl]
    rw [pySplitlines_noTrailNl append_cons_ne_nil
      (lastNotSpace_line3 append_cons_ne_nil
        (lastNotSpace_kv _ hvbl hvbne))]
    rw [pySplitNl_three (hostline_noNl hh) (ikv_line_noNl htokk hva)
      (ikv_line_noNl htokk hvb)]
    rw [foldE_cons _ hstep1, foldE_cons _ hstep2, foldE_cons _ hstep3]
    rfl
  · -- core: a single multi-value occurrence becomes a one-element list
    have hrecb : Core.coreRecord [("Host", Value.str h)]
        (String.mk (lowerL "IdentityFile".data)) f.data =
        Except.ok [("Host", Value.str h), ("Identityfile", Value.seq [f])] := by
      rw [coreRecord_multi_new _ _ _ (by decide)
        (by
          rw [dictGet_cons_ne (by decide)]
          rfl)]
      rw [dictSet_new (not_mem_fst_cons (by decide) (not_mem_fst_nil _))]
      rfl
    have hcstep1 : Core.coreStep ⟨[], none, false⟩ ("Host ".data ++ h.data) =
        Except.ok ⟨[], some [("Host", Value.str h)], false⟩ :=
      coreStep_host ⟨[], none, false⟩ h (headNotSpace_of_token hh)
        (lastNotSpace_of_token hh) (tokenL_iff.mp hh).1
    have hcstep2 : Core.coreStep ⟨[], some [("Host", Value.str h)], false⟩
        ("    ".data ++ "IdentityFile".data ++ ' ' :: f.data) =
        Except.ok ⟨[], some [("Host", Value.str h), ("Identityfile", Value.seq [f])],
          false⟩ :=
      coreStep_dir_some [] [("Host", Value.str h)] false "IdentityFile" f "    ".data
        (by decide) (by decide) rfl hfh hfl hfne (by decide) hrecb
    unfold Core.ssh_to_dict
    rw [show (String.mk (("Host ".data ++ h.data) ++ '\n' ::
        ("    ".data ++ "IdentityFile".data ++ ' ' :: f.data))).data =
      ("Host ".data ++ h.data) ++ '\n' ::
        ("    ".data ++ "IdentityFile".data ++ ' ' :: f.data) from rfl]
    rw [pySplitNl_two (hostline_noNl hh) (ikv_line_noNl (by decide) hf)]
    rw [foldE_cons _ hcstep1, foldE_cons _ hcstep2]
    rfl
  · -- core: repeats of a non-multi-value name overwrite
    have hrecc1 : Core.coreRecord [("Host", Value.str h)]
        (String.mk (lowerL "User".data)) p.data =
        Except.ok [("Host", Value.str h), ("User", Value.str p)] := by
      rw [coreRecord_nonmulti _ _ _ (by decide)]
      rw [dictSet_new (not_mem_fst_cons (by decide) (not_mem_fst_nil _))]
      rfl
    have hrecc2 : Core.coreRecord [("Host", Value.str h), ("User", Value.str p)]
        (String.mk (lowerL "User".data)) q.data =
        Except.ok [("Host", Value.str h), ("User", Value.str q)] := by
      rw [coreRecord_nonmulti _ _ _ (by decide)]
      rw [show String.mk (pyCapitalize (String.mk (lowerL "User".data)).data) =
        "User" from rfl]
      rw [show [("Host", Value.str h), ("User", Value.str p)] =
        [("Host", Value.str h)] ++ [("User", Value.str p)] from rfl]
      rw [dictSet_update_last (not_mem_fst_cons (by decide) (not_mem_fst_nil _))]
      rfl
    have hcstep1 : Core.coreStep ⟨[], none, false⟩ ("Host ".data ++ h.data) =
        Except.ok ⟨[], some [("Host", Value.str h)], false⟩ :=
      coreStep_host ⟨[], none, false⟩ h (headNotSpace_of_token hh)
        (lastNotSpace_of_token hh) (tokenL_iff.mp hh).1
    have hcstep2 : Core.coreStep ⟨[], some [("Host", Value.str h)], false⟩
        ("    ".data ++ "User".data ++ ' ' :: p.data) =
        Except.ok ⟨[], some [("Host", Value.str h), ("User", Value.str p)], false⟩ :=
      coreStep_dir_some [] [("Host", Value.str h)] false "User" p "    ".data
        (by decide) (by decide) rfl hph hpl hpne (by decide) hrecc1
    have hcstep3 : Core.coreStep
        ⟨[], some [("Host", Value.str h), ("User", Value.str p)], false⟩
        ("    ".data ++ "User".data ++ ' ' :: q.data) =
        Except.ok ⟨[], some [("Host", Value.str h), ("User", Value.str q)], false⟩ :=
      coreStep_dir_some [] [("Host", Value.str h), ("User", Value.str p)] false
        "User" q "    ".data (by decide) (by decide) rfl hqh hql hqne (by decide) hrecc2
    unfold Core.ssh_to_dict
    rw [show (String.mk (("Host ".data ++ h.data) ++ '\n' ::
        (("    ".data ++ "User".data ++ ' ' :: p.data) ++ '\n' ::
          ("    ".data ++ "User".data ++ ' ' :: q.data)))).data =
      ("Host ".data ++ h.data) ++ '\n' ::
        (("    ".data ++ "User".data ++ ' ' :: p.data) ++ '\n' ::
          ("    ".data ++ "User".data ++ ' ' :: q.data)) from rfl]
    rw [pySplitNl_three (hostline_noNl hh) (ikv_line_noNl (by decide) hp)
      (ikv_line_noNl (by decide) hq)]
    rw [foldE_cons _ hcstep1, foldE_cons _ hcstep2, foldE_cons _ hcstep3]
    rfl

/-- C4 witness: accumulation of `Port`, one-element list for one
`IdentityFile`, overwrite of repeated `User`. -/
theorem C4_multivalue_amended_witness :
    wfKeyL "Port".data = true ∧
    Parser.parse_ssh_config (String.mk (("Host ".data ++ "h".data) ++ '\n' ::
        (("    ".data ++ "Port".data ++ ' ' :: "1".data) ++ '\n' ::
          ("    ".data ++ "Port".data ++ ' ' :: "2".data)))) =
      Except.ok [[("Host", Value.str "h"), ("Port", Value.seq ["1", "2"])]] ∧
    Core.ssh_to_dict (String.mk (("Host ".data ++ "h".data) ++ '\n' ::
        ("    ".data ++ "IdentityFile".data ++ ' ' :: "x".data))) =
      Except.ok ⟨[[("Host", Value.str "h"), ("Identityfile", Value.seq ["x"])]]⟩ ∧
    Core.ssh_to_dict (String.mk (("Host ".data ++ "h".data) ++ '\n' ::
        (("    ".data ++ "User".data ++ ' ' :: "a".data) ++ '\n' ::
          ("    ".data ++ "User".data ++ ' ' :: "b".data)))) =
      Except.ok ⟨[[("Host", Value.str "h"), ("User", Value.str "b")]]⟩ :=
  ⟨by decide,
   (C4_multivalue_amended "h" "Port" "1" "2" "x" "a" "b" (by decide) (by decide)
     (by decide) (by decide) (by decide) (by decide) (by decide)).1,
   (C4_multivalue_amended "h" "Port" "1" "2" "x" "a" "b" (by decide) (by decide)
     (by decide) (by decide) (by decide) (by decide) (by decide)).2.1,
   (C4_multivalue_amended "h" "Port" "1" "2" "x" "a" "b" (by decide) (by decide)
     (by decide) (by decide) (by decide) (by decide) (by decide)).2.2⟩

/-- C7, counterexample: `parser.py` matches directive names
case-sensitively — `User` and `user` land in two separate keys with no
accumulation — and `core.py` stores `HostName` as `Hostname`, not with the
casing of the first occurrence. -/
theorem C7_counterexample :
    Parser.parse_ssh_config "Host h\n    User a\n    user b\n" =
      Except.ok [[("Host", Value.str "h"), ("User", Value.str "a"),
                  ("user", Value.str "b")]] ∧
    Core.ssh_to_dict "Host h\n    HostName x\n" =
      Except.ok ⟨[[("Host", Value.str "h"), ("Hostname", Value.str "x")]]⟩ ∧
    ("user" : String) ≠ "User" ∧ ("Hostname" : String) ≠ "HostName" :=
  ⟨rfl, rfl, by decide, by decide⟩

/-- C7, amended: `parser.py` matches keys case-sensitively and stores each
spelling verbatim — two names equal up to case give two separate scalar
keys — while `core.py` stores every directive under
`capitalize(lower(name))`, forgetting the occurrence casing. -/
theorem C7_casing_amended (h k1 k2 k v va vb : String)
    (hh : tokenL h.data = true) (hk1 : wfKeyL k1.data = true)
    (hk2 : wfKeyL k2.data = true) (hne : k1 ≠ k2)
    (hlow : lowerL k1.data = lowerL k2.data)
    (hva : plainVal va.data = true) (hvb : plainVal vb.data = true)
    (hk : wfKeyL k.data = true) (hv : plainVal v.data = true)
    (hm : Core.multiValueKeys.contains (String.mk (lowerL k.data)) = false) :
    Parser.parse_ssh_config (String.mk (("Host ".data ++ h.data) ++ '\n' ::
        (("    ".data ++ k1.data ++ ' ' :: va.data) ++ '\n' ::
          ("    ".data ++ k2.data ++ ' ' :: vb.data)))) =
      Except.ok [[("Host", Value.str h), (k1, Value.str va), (k2, Value.str vb)]] ∧
    Core.ssh_to_dict (String.mk (("Host ".data ++ h.data) ++ '\n' ::
        ("    ".data ++ k.data ++ ' ' :: v.data))) =
      Except.ok ⟨[[("Host", Value.str h),
                   (String.mk (pyCapitalize (lowerL k.data)), Value.str v)]]⟩ := by
  obtain ⟨hvane, hvah, hval⟩ := plainVal_parts hva
  obtain ⟨hvbne, hvbh, hvbl⟩ := plainVal_parts hvb
  obtain ⟨hvne, hvh, hvl⟩ := plainVal_parts hv
  have htok1 : tokenL k1.data = true := (wfKeyL_parts hk1).1
  have htok2 : tokenL k2.data = true := (wfKeyL_parts hk2).1
  have htokk : tokenL k.data = true := (wfKeyL_parts hk).1
  constructor
  · have hget1 : dictGet [("Host", Value.str h)] k1 = none := by
      rw [dictGet_cons_ne (Ne.symm (wfKey_ne_HostStr hk1))]
      rfl
    have hstep1 : Parser.parseStep ([], none) ("Host ".data ++ h.data) =
        Except.ok ([], some [("Host", Value.str h)]) :=
      parseStep_host [] none (Value.str h) hh
    have hstep2 : Parser.parseStep ([], some [("Host", Value.str h)])
        ("    ".data ++ k1.data ++ ' ' :: va.data) =
        Except.ok ([], some [("Host", Value.str h), (k1, Value.str va)]) := by
      rw [parseStep_dir_new [] [("Host", Value.str h)] k1 va "    ".data
        (by decide) hk1 hvah hval hvane hget1]
      rw [dictSet_new (not_mem_fst_cons (wfKey_ne_HostStr hk1) (not_mem_fst_nil _))]
      rfl
    have hget2 : dictGet [("Host", Value.str h), (k1, Value.str va)] k2 = none := by
      rw [dictGet_cons_ne (Ne.symm (wfKey_ne_HostStr hk2))]
      rw [dictGet_cons_ne hne]
      rfl
    have hstep3 : Parser.parseStep
        ([], some [("Host", Value.str h), (k1, Value.str va)])
        ("    ".data ++ k2.data ++ ' ' :: vb.data) =
        Except.ok ([], some [("Host", Value.str h), (k1, Value.str va),
          (k2, Value.str vb)]) := by
      rw [parseStep_dir_new [] [("Host", Value.str h), (k1, Value.str va)] k2 vb
        "    ".data (by decide) hk2 hvbh hvbl hvbne hget2]
      rw [dictSet_new (not_mem_fst_cons (wfKey_ne_HostStr hk2)
        (not_mem_fst_cons (Ne.symm hne) (not_mem_fst_nil _)))]
      rfl
    unfold Parser.parse_ssh_config
    rw [show (String.mk (("Host ".data ++ h.data) ++ '\n' ::
        (("    ".data ++ k1.data ++ ' ' :: va.data) ++ '\n' ::
          ("    ".data ++ k2.data ++ ' ' :: vb.data)))).data =
      ("Host ".data ++ h.data) ++ '\n' ::
        (("    ".data ++ k1.data ++ ' ' :: va.data) ++ '\n' ::
          ("    ".data ++ k2.data ++ ' ' :: vb.data)) from rfl]
    rw [pySplitlines_noTrailNl append_cons_ne_nil
      (lastNotSpace_line3 append_cons_ne_nil (lastNotSpace_kv _ hvbl hvbne))]
    rw [pySplitNl_three (hostline_noNl hh) (ikv_line_noNl htok1 hva)
      (ikv_line_noNl htok2 hvb)]
    rw [foldE_cons _ hstep1, foldE_cons _ hstep2, foldE_cons _ hstep3]
    rfl
  · have hrec : Core.coreRecord [("Host", Value.str h)]
        (String.mk (lowerL k.data)) v.data =
        Except.ok [("Host", Value.str h),
          (String.mk (pyCapitalize (lowerL k.data)), Value.str v)] := by
      rw [coreRecord_nonmulti _ _ _ hm]
      rw [dictSet_new (not_mem_fst_cons
        (cap_ne_Host lowered_of_lowerL (wfKey_lower_ne_host hk)) (not_mem_fst_nil _))]
      rfl
    have hcstep1 : Core.coreStep ⟨[], none, false⟩ ("Host ".data ++ h.data) =
        Except.ok ⟨[], some [("Host", Value.str h)], false⟩ :=
      coreStep_host ⟨[], none, false⟩ h (headNotSpace_of_token hh)
        (lastNotSpace_of_token hh) (tokenL_iff.mp hh).1
    have hcstep2 : Core.coreStep ⟨[], some [("Host", Value.str h)], false⟩
        ("    ".data ++ k.data ++ ' ' :: v.data) =
        Except.ok ⟨[], some [("Host", Value.str h),
          (String.mk (pyCapitalize (lowerL k.data)), Value.str v)], false⟩ :=
      coreStep_dir_some [] [("Host", Value.str h)] false k v "    ".data
        (by decide) htokk (wfKey_line_nohash hk) hvh hvl hvne
        (wfKey_mk_lower_ne_host hk) hrec
    unfold Core.ssh_to_dict
    rw [show (String.mk (("Host ".data ++ h.data) ++ '\n' ::
        ("    ".data ++ k.data ++ ' ' :: v.data))).data =
      ("Host ".data ++ h.data) ++ '\n' ::
        ("    ".data ++ k.data ++ ' ' :: v.data) from rfl]
    rw [pySplitNl_two (hostline_noNl hh) (ikv_line_noNl htokk hv)]
    rw [foldE_cons _ hcstep1, foldE_cons _ hcstep2]
    rfl

/-- C7 witness: the amended behaviour at `User`/`user` and `HostName`. -/
theorem C7_casing_amended_witness :
    lowerL "User".data = lowerL "user".data ∧
    Parser.parse_ssh_config (String.mk (("Host ".data ++ "h".data) ++ '\n' ::
        (("    ".data ++ "User".data ++ ' ' :: "a".data) ++ '\n' ::
          ("    ".data ++ "user".data ++ ' ' :: "b".data)))) =
      Except.ok [[("Host", Value.str "h"), ("User", Value.str "a"),
                  ("user", Value.str "b")]] ∧
    Core.ssh_to_dict (String.mk (("Host ".data ++ "h".data) ++ '\n' ::
        ("    ".data ++ "HostName".data ++ ' ' :: "x".data))) =
      Except.ok ⟨[[("Host", Value.str "h"),
                   (String.mk (pyCapitalize (lowerL "HostName".data)), Value.str "x")]]⟩ :=
  ⟨by decide,
   (C7_casing_amended "h" "User" "user" "HostName" "x" "a" "b" (by decide) (by decide)
     (by decide) (by decide) (by decide) (by decide) (by decide) (by decide)
     (by decide) (by decide)).1,
   (C7_casing_amended "h" "User" "user" "HostName" "x" "a" "b" (by decide) (by decide)
     (by decide) (by decide) (by decide) (by decide) (by decide) (by decide)
     (by decide) (by decide)).2⟩


/-- C5, counterexample: `core.py`'s `detect_format` raises
`ValueError("Empty content")` on whitespace-only input instead of returning
the line-format tag as a defined default; only `parser.py` returns `ssh`
there. -/
theorem C5_counterexample :
    Core.detect_format oCollect "   " = Except.error "Empty content" ∧
    Parser.detect_format oCollect "" = "ssh" :=
  ⟨rfl, rfl⟩

/-- C5, amended: `parser.py`'s detector totally classifies every input into
`ssh`/`json`/`yaml` and returns `ssh` on empty or whitespace-only input;
`core.py`'s detector never errors on input with non-whitespace content but
raises `Empty content` on empty or whitespace-only input. -/
theorem C5_detect_amended (o : DetOracles) (s : String)
    (hne : stripL s.data ≠ []) :
    (Parser.detect_format o s = "ssh" ∨ Parser.detect_format o s = "json" ∨
      Parser.detect_format o s = "yaml") ∧
    Parser.detect_format o "" = "ssh" ∧
    Parser.detect_format o "   " = "ssh" ∧
    Core.detect_format o "" = Except.error "Empty content" ∧
    Core.detect_format o "   " = Except.error "Empty content" ∧
    ∃ t, Core.detect_format o s = Except.ok t := by
  have hF : (stripL s.data).isEmpty = false := by
    rcases hc : stripL s.data with _ | ⟨c, t⟩
    · exact absurd hc hne
    · rfl
  refine ⟨?_, rfl, rfl, rfl, rfl, ?_⟩
  · unfold Parser.detect_format
    dsimp only
    rw [hF]
    simp only [Bool.false_eq_true, if_false]
    cases hj : o.jsonOk (stripL s.data)
    · simp only [Bool.false_eq_true, if_false]
      cases hy : o.yamlLoad (stripL s.data)
      · left; rfl
      · cases hl : Parser.looks_like_ssh_config (stripL s.data)
        · simp only [hl, Bool.false_eq_true, if_false]
          right; right; trivial
        · simp only [hl, if_true]
          left; trivial
    · right; left; simp
  · unfold Core.detect_format
    dsimp only
    rw [hF]
    simp only [Bool.false_eq_true, if_false]
    cases hj : o.jsonOk (stripL s.data)
    · simp only [Bool.false_eq_true, if_false]
      cases hy : o.yamlLoad (stripL s.data)
      · exact ⟨"ssh", rfl⟩
      · rename_i sh
        cases sh with
        | scalar => exact ⟨"ssh", rfl⟩
        | collection => exact ⟨"yaml", rfl⟩
    · exact ⟨"json", by simp⟩

/-- C5 witness: the amended detector behaviour at a non-blank input. -/
theorem C5_detect_amended_witness :
    stripL "Host h".data ≠ [] ∧
    ((Parser.detect_format oCollect "Host h" = "ssh" ∨
        Parser.detect_format oCollect "Host h" = "json" ∨
        Parser.detect_format oCollect "Host h" = "yaml") ∧
      Parser.detect_format oCollect "" = "ssh" ∧
      Parser.detect_format oCollect "   " = "ssh" ∧
      Core.detect_format oCollect "" = Except.error "Empty content" ∧
      Core.detect_format oCollect "   " = Except.error "Empty content" ∧
      ∃ t, Core.detect_format oCollect "Host h" = Except.ok t) :=
  ⟨by decide, C5_detect_amended oCollect "Host h" (by decide)⟩

/-- C6, counterexample: the ten-line window of `parser.py` counts physical
lines — ten comment lines push the `host `-prefixed line out of the window,
so the heuristic misses it and the input is classified as markup — and
`core.py` applies no line heuristic at all, classifying `Host h: x` as
markup although that line begins with `Host `. -/
theorem C6_counterexample :
    Parser.detect_format oCollect
        "#a\n#a\n#a\n#a\n#a\n#a\n#a\n#a\n#a\n#a\nHost h: x" = "yaml" ∧
    Core.detect_format oCollect "Host h: x" = Except.ok "yaml" :=
  ⟨rfl, rfl⟩

/-- C6, amended: when the strict JSON parse fails and the lenient YAML parse
succeeds, `parser.py` classifies by the per-line heuristic scanned over the
first ten physical lines (`looks_like_ssh_config`; comment and blank lines
count towards the window), whatever the parse's shape, while `core.py`
ignores the heuristic and returns the markup tag exactly for
mapping/sequence shapes. -/
theorem C6_heuristic_amended (o : DetOracles) (s : String) (sh : YamlShape)
    (hne : stripL s.data ≠ [])
    (hjson : o.jsonOk (stripL s.data) = false)
    (hyaml : o.yamlLoad (stripL s.data) = some sh) :
    Parser.detect_format o s =
      (if Parser.looks_like_ssh_config (stripL s.data) then "ssh" else "yaml") ∧
    Core.detect_format o s =
      Except.ok (match sh with | YamlShape.collection => "yaml" | _ => "ssh") := by
  have hF : (stripL s.data).isEmpty = false := by
    rcases hc : stripL s.data with _ | ⟨c, t⟩
    · exact absurd hc hne
    · rfl
  constructor
  · unfold Parser.detect_format
    dsimp only
    rw [hF, hjson]
    simp only [Bool.false_eq_true, if_false, hyaml]
  · unfold Core.detect_format
    dsimp only
    rw [hF, hjson]
    simp only [Bool.false_eq_true, if_false, hyaml]
    cases sh with
    | scalar => rfl
    | collection => rfl

/-- C6 witness: the amended behaviour where the heuristic fires within the
window. -/
theorem C6_heuristic_amended_witness :
    stripL "Host h: x".data ≠ [] ∧
    Parser.detect_format oCollect "Host h: x" =
      (if Parser.looks_like_ssh_config (stripL "Host h: x".data) then "ssh"
        else "yaml") ∧
    Core.detect_format oCollect "Host h: x" =
      Except.ok (match YamlShape.collection with
        | YamlShape.collection => "yaml" | _ => "ssh") :=
  ⟨by decide,
   (C6_heuristic_amended oCollect "Host h: x" YamlShape.collection (by decide)
     rfl rfl).1,
   (C6_heuristic_amended oCollect "Host h: x" YamlShape.collection (by decide)
     rfl rfl).2⟩

/-- C8, counterexample: `core.py`'s `dict_to_ssh` ends without any trailing
newline, and renders a sequence-valued `Host` through the Python `repr` of a
list rather than space-joining the patterns. -/
theorem C8_counterexample :
    Core.dict_to_ssh ⟨[[("Host", Value.str "h"), ("User", Value.str "u")]]⟩ =
      "Host h\n    User u" ∧
    ("Host h\n    User u" : String).data.getLast? ≠ some '\n' ∧
    Core.dict_to_ssh ⟨[[("Host", Value.seq ["a", "b"])]]⟩ ≠ "Host a b" :=
  ⟨rfl, by decide, by decide⟩

/-- C8, amended: `parser.py`'s serialiser emits exactly the claimed line
sequence — host line, 4-space-indented value lines in stored order, one line
per sequence element, a blank separator per block — joined with newlines and
ending in exactly one trailing newline (the whole output right-stripped plus
one newline); `core.py`'s serialiser strips the trailing newline entirely,
and see the counterexample for its sequence-`Host` rendering. -/
theorem C8_serializer_amended {d : Doc} (h : wfDoc d = true) (hne : d ≠ []) :
    Parser.format_ssh_config d = Except.ok (String.mk (joinL ['\n'] (specLines d))) ∧
    (joinL ['\n'] (specLines d)).getLast? = some '\n' ∧
    rstripL (joinL ['\n'] (specLines d)) ++ ['\n'] = joinL ['\n'] (specLines d) ∧
    Core.dict_to_ssh ⟨[[("Host", Value.str "h"), ("User", Value.str "u")]]⟩ =
      "Host h\n    User u" := by
  obtain ⟨M, lst, hdec, hlstne, hlast⟩ := specLines_decomp d h hne
  have hjoin : joinL ['\n'] (specLines d) = joinL ['\n'] (M ++ [lst]) ++ ['\n'] := by
    rw [hdec, joinL_append_single (M ++ [lst]) [] (by simp)]
    rfl
  refine ⟨format_wf h hne, ?_, ?_, rfl⟩
  · rw [hjoin]
    exact List.getLast?_concat _
  · rw [hjoin, rstripL_append_nl,
      rstripL_eq_self (lastNotSpace_joinL_last hlstne hlast)]

/-- C8 witness: the amended serialiser properties at a concrete two-block
document with sequence values. -/
theorem C8_serializer_amended_witness :
    wfDoc [[("Host", Value.seq ["a", "b"]), ("K", Value.seq ["v", "w"])],
           [("Host", Value.str "h2")]] = true ∧
    Parser.format_ssh_config
        [[("Host", Value.seq ["a", "b"]), ("K", Value.seq ["v", "w"])],
         [("Host", Value.str "h2")]] =
      Except.ok (String.mk (joinL ['\n'] (specLines
        [[("Host", Value.seq ["a", "b"]), ("K", Value.seq ["v", "w"])],
         [("Host", Value.str "h2")]]))) ∧
    (joinL ['\n'] (specLines
        [[("Host", Value.seq ["a", "b"]), ("K", Value.seq ["v", "w"])],
         [("Host", Value.str "h2")]])).getLast? = some '\n' :=
  ⟨by decide,
   (C8_serializer_amended (by decide) (by decide)).1,
   (C8_serializer_amended (by decide) (by decide)).2.1⟩

/-- C9, counterexample: converting the claim's own input to the brace format,
the `parser.py` path produces output with no `hosts` key at all (a bare
top-level array), and the `core.py` path produces output with no `HostName`
key (the key is renormalised to `Hostname`). -/
theorem C9_counterexample :
    (Parser.convert_format oScalar loP
        "Host example.com\n    HostName example.com\n    User admin\n    Port 2222\n"
        "json" (some "ssh")).map
        (fun out => containsSub "hosts".data out.data) = Except.ok false ∧
    (Core.convert oScalar loC
        "Host example.com\n    HostName example.com\n    User admin\n    Port 2222\n"
        "json").map
        (fun out => containsSub "HostName".data out.data) = Except.ok false :=
  ⟨rfl, rfl⟩

/-- C9, amended: on the claim's input the `core.py` conversion emits the
top-level `hosts` mapping with `Port` kept as the string `"2222"` but with
the key renormalised to `Hostname`, while the `parser.py` conversion keeps
`HostName` verbatim but emits the entries as a bare top-level array. -/
theorem C9_convert_amended :
    Parser.convert_format oScalar loP
        "Host example.com\n    HostName example.com\n    User admin\n    Port 2222\n"
        "json" (some "ssh") =
      Except.ok "[\n  \x7b\n    \"Host\": \"example.com\",\n    \"HostName\": \"example.com\",\n    \"User\": \"admin\",\n    \"Port\": \"2222\"\n  \x7d\n]" ∧
    Core.convert oScalar loC
        "Host example.com\n    HostName example.com\n    User admin\n    Port 2222\n"
        "json" =
      Except.ok "\x7b\n  \"hosts\": [\n    \x7b\n      \"Host\": \"example.com\",\n      \"Hostname\": \"example.com\",\n      \"User\": \"admin\",\n      \"Port\": \"2222\"\n    \x7d\n  ]\n\x7d" ∧
    containsSub "\"hosts\": [".data
      "\x7b\n  \"hosts\": [\n    \x7b\n      \"Host\": \"example.com\",\n      \"Hostname\": \"example.com\",\n      \"User\": \"admin\",\n      \"Port\": \"2222\"\n    \x7d\n  ]\n\x7d".data = true ∧
    containsSub "\"Port\": \"2222\"".data
      "\x7b\n  \"hosts\": [\n    \x7b\n      \"Host\": \"example.com\",\n      \"Hostname\": \"example.com\",\n      \"User\": \"admin\",\n      \"Port\": \"2222\"\n    \x7d\n  ]\n\x7d".data = true :=
  ⟨rfl, rfl, by decide, by decide⟩

/-- C10, confirmed: both line-format parsers are total — every input string
yields a document — and blank lines, lines whose first non-space character
is `#`, and lines with no interior whitespace are skipped by both. -/
theorem C10_total_skip :
    (∀ s : String, ∃ d, Parser.parse_ssh_config s = Except.ok d) ∧
    (∀ s : String, ∃ cd, Core.ssh_to_dict s = Except.ok cd) ∧
    (∀ (st : Doc × Option Entry) (raw : List Char), stripL raw = [] →
      Parser.parseStep st raw = Except.ok st) ∧
    (∀ (st : Doc × Option Entry) (raw t : List Char), stripL raw = '#' :: t →
      Parser.parseStep st raw = Except.ok st) ∧
    (∀ (st : Doc × Option Entry) (raw : List Char),
      (stripL raw).contains ' ' = false → Parser.parseStep st raw = Except.ok st) ∧
    (∀ (st : Core.CSt) (raw : List Char), stripL raw = [] →
      Core.coreStep st raw = Except.ok st) ∧
    (∀ (st : Core.CSt) (raw t : List Char), stripL raw = '#' :: t →
      Core.coreStep st raw = Except.ok st) ∧
    (∀ (st : Core.CSt) (raw : List Char), (∀ c ∈ stripL raw, isPySpace c = false) →
      Core.coreStep st raw = Except.ok st) :=
  ⟨parse_total, ssh_to_dict_total,
   fun st _ h => parseStep_blank st h,
   fun st _ _ h => parseStep_comment st h,
   fun st _ h => parseStep_nospace st h,
   fun st _ h => coreStep_blank st h,
   fun st _ _ h => coreStep_comment st h,
   fun st _ h => coreStep_noWs st h⟩

/-- C10 witness: totality and the skip rules at concrete malformed input. -/
theorem C10_total_skip_witness :
    (∃ d, Parser.parse_ssh_config "   \n# c\nnospace\nHost h\n    User u\n" =
      Except.ok d) ∧
    (∃ cd, Core.ssh_to_dict "   \n# c\nnospace\nHost h\n    User u\n" =
      Except.ok cd) ∧
    Parser.parseStep ([], none) "nospace".data = Except.ok ([], none) ∧
    Core.coreStep ⟨[], none, false⟩ "# c".data = Except.ok ⟨[], none, false⟩ :=
  ⟨C10_total_skip.1 _, C10_total_skip.2.1 _,
   C10_total_skip.2.2.2.2.1 ([], none) "nospace".data (by decide),
   C10_total_skip.2.2.2.2.2.2.1 ⟨[], none, false⟩ "# c".data [' ', 'c'] (by decide)⟩

end SSHConf
